import Mathlib

/-!
# Verification of the agent-loop / action-protocol core

Shallow embedding of the agent loop, action protocol codec, transcript
builder and tool dispatch of the `copilot-agent-participant-js` repository
(`src/agent/agentModeRunner.js`, `src/agent/actionProtocol.js`,
`src/agent/historyAdapter.js`, `src/tools/toolRegistry.js`), together with a
model of the JavaScript `JSON.parse` / `JSON.stringify` primitives these
files call.

Modelling conventions:
* JavaScript values flowing through the protocol are modelled by the `Json`
  inductive below.  JSON numbers are modelled as integers (`Int`); IEEE-754
  doubles with a fractional part or exponent are outside the model (none of
  the protocol payloads of this repository produce them, and the embedded
  number parser rejects them rather than approximating).
* JavaScript strings are modelled by Lean `String` (sequences of Unicode
  scalar values); lone UTF-16 surrogates, which Lean strings cannot carry,
  are mapped to U+FFFD by the embedded `\uXXXX` escape decoder.
* Objects are modelled as ordered key/value lists, matching the insertion
  order that JavaScript objects preserve and `JSON.stringify` serializes.
  Property lookup takes the last binding of a key, matching the
  overwrite-on-insert semantics of JavaScript objects fed from `JSON.parse`.
-/

mutual
/-- JavaScript/JSON values (`JSON.parse` results, tool inputs, history
turns). Mutually inductive with ordered array-element and object-field
lists. -/
inductive Json where
  | null : Json
  | bool (b : Bool) : Json
  | num (n : Int) : Json
  | str (s : String) : Json
  | arr (items : JsonItems) : Json
  | obj (fields : JsonFields) : Json
deriving Repr, DecidableEq

/-- Ordered elements of a JSON array. -/
inductive JsonItems where
  | nil : JsonItems
  | cons (hd : Json) (tl : JsonItems) : JsonItems
deriving Repr, DecidableEq

/-- Ordered key/value fields of a JSON object. -/
inductive JsonFields where
  | nil : JsonFields
  | cons (key : String) (val : Json) (tl : JsonFields) : JsonFields
deriving Repr, DecidableEq
end

/-- Array elements as a plain list. -/
def JsonItems.toList : JsonItems → List Json
  | .nil => []
  | .cons v tl => v :: JsonItems.toList tl

/-- Object fields as a plain association list. -/
def JsonFields.toList : JsonFields → List (String × Json)
  | .nil => []
  | .cons k v tl => (k, v) :: JsonFields.toList tl

/-- JavaScript truthiness of a modelled value (`undefined` is modelled by
`Option.none` at use sites; here `null`, `false`, `0` and `""` are falsy,
every object and array is truthy). -/
def jsTruthy : Json → Bool
  | .null => false
  | .bool b => b
  | .num n => n != 0
  | .str s => s != ""
  | .arr _ => true
  | .obj _ => true

/-- Property access `value[key]` on a modelled JavaScript value: `none`
models `undefined`.  On objects the *last* binding wins, matching the
overwrite-on-insert construction of JavaScript objects; non-objects
(including arrays accessed with these non-index keys) yield `undefined`. -/
def lookupField (v : Json) (key : String) : Option Json :=
  match v with
  | .obj fields => go fields none
  | _ => none
where
  go : JsonFields → Option Json → Option Json
  | .nil, acc => acc
  | .cons k w tl, acc => go tl (if k == key then some w else acc)

/-- JavaScript whitespace relevant here: the JSON whitespace characters. -/
def isJsonWs (c : Char) : Bool :=
  c == ' ' || c == '\t' || c == '\n' || c == '\r'

/-- `String.prototype.trim` modelled on ASCII whitespace (the strings the
repository trims are model output and prompts; only ASCII whitespace is
relevant to the verified claims). -/
def jsTrimChars (cs : List Char) : List Char :=
  ((cs.dropWhile isJsonWs).reverse.dropWhile isJsonWs).reverse

/-- `String.prototype.trim` on Lean strings. -/
def jsTrim (s : String) : String :=
  String.mk (jsTrimChars s.data)

/-- ASCII lower-casing of one character (`String.prototype.toLowerCase`
restricted to ASCII, which covers every comparison the code performs). -/
def asciiLowerChar (c : Char) : Char :=
  if 'A' ≤ c && c ≤ 'Z' then Char.ofNat (c.toNat + 32) else c

/-- ASCII lower-casing of a string. -/
def asciiLower (s : String) : String :=
  String.mk (s.data.map asciiLowerChar)

/-! ## `JSON.stringify` -/

/-- Decimal digits of `n`, most significant first; the first argument is
structural fuel (any fuel above `n` is enough). -/
def natCharsAux : Nat → Nat → List Char
  | 0, _ => []
  | f+1, n =>
    if n < 10 then [Char.ofNat (48 + n)]
    else natCharsAux f (n / 10) ++ [Char.ofNat (48 + n % 10)]

/-- Decimal representation of a natural number. -/
def natChars (n : Nat) : List Char := natCharsAux (n + 1) n

/-- Decimal representation of an integer, as `JSON.stringify` prints the
integral doubles this model covers. -/
def intChars (n : Int) : List Char :=
  if n < 0 then '-' :: natChars n.natAbs else natChars n.toNat

/-- Lower-case hexadecimal digit for `n < 16`. -/
def hexDigit (n : Nat) : Char :=
  if n < 10 then Char.ofNat (48 + n) else Char.ofNat (87 + n)

/-- The escape `JSON.stringify` applies to one character inside a string
literal: `"` and `\` get a backslash, the five short control escapes are
used where they exist, all other control characters become `\u00XX`, and
everything else is emitted verbatim. -/
def escChar (c : Char) : List Char :=
  if c = '"' then ['\\', '"']
  else if c = '\\' then ['\\', '\\']
  else if c = Char.ofNat 8 then ['\\', 'b']
  else if c = '\t' then ['\\', 't']
  else if c = '\n' then ['\\', 'n']
  else if c = Char.ofNat 12 then ['\\', 'f']
  else if c = Char.ofNat 13 then ['\\', 'r']
  else if c.toNat < 32 then
    ['\\', 'u', '0', '0', hexDigit (c.toNat / 16), hexDigit (c.toNat % 16)]
  else [c]

/-- Escaped body of a serialized string literal. -/
def escChars : List Char → List Char
  | [] => []
  | c :: cs => escChar c ++ escChars cs

/-- A serialized string literal, quotes included. -/
def strLitChars (s : String) : List Char :=
  '"' :: escChars s.data ++ ['"']

/-- Left and right curly braces (as named characters). -/
def lbrace : Char := Char.ofNat 123

/-- Right curly brace. -/
def rbrace : Char := Char.ofNat 125

mutual
/-- Character stream of `JSON.stringify value` (no added whitespace, fields
in insertion order — exactly what V8 emits for the values in this model). -/
def jcharsV : Json → List Char
  | .null => 'n' :: ['u', 'l', 'l']
  | .bool true => 't' :: ['r', 'u', 'e']
  | .bool false => 'f' :: ['a', 'l', 's', 'e']
  | .num n => intChars n
  | .str s => strLitChars s
  | .arr items => '[' :: jcharsItems items ++ [']']
  | .obj fields => lbrace :: jcharsFields fields ++ [rbrace]

/-- Comma-separated serialized array elements. -/
def jcharsItems : JsonItems → List Char
  | .nil => []
  | .cons v .nil => jcharsV v
  | .cons v (.cons w tl) => jcharsV v ++ ',' :: jcharsItems (.cons w tl)

/-- Comma-separated serialized `"key":value` fields. -/
def jcharsFields : JsonFields → List Char
  | .nil => []
  | .cons k v .nil => strLitChars k ++ ':' :: jcharsV v
  | .cons k v (.cons k' w tl) =>
    strLitChars k ++ ':' :: jcharsV v ++ ',' :: jcharsFields (.cons k' w tl)
end

/-- `JSON.stringify` on modelled values. -/
def Json.stringify (j : Json) : String := String.mk (jcharsV j)

/-! ## `JSON.parse` -/

/-- Drop leading JSON whitespace. -/
def skipWs : List Char → List Char
  | [] => []
  | c :: cs => if isJsonWs c then skipWs cs else c :: cs

/-- Numeric value of a hexadecimal digit character. -/
def hexVal (c : Char) : Nat :=
  if c.toNat ≥ 97 then c.toNat - 87
  else if c.toNat ≥ 65 then c.toNat - 55
  else c.toNat - 48

/-- Is `c` a hexadecimal digit? -/
def isHexDigitChar (c : Char) : Bool :=
  ('0' ≤ c && c ≤ '9') || ('a' ≤ c && c ≤ 'f') || ('A' ≤ c && c ≤ 'F')

/-- Decode a four-digit `\uXXXX` payload. -/
def hexQuad (h1 h2 h3 h4 : Char) : Nat :=
  ((hexVal h1 * 16 + hexVal h2) * 16 + hexVal h3) * 16 + hexVal h4

/-- A Unicode scalar value from a decoded UTF-16 code unit; lone
surrogates (unrepresentable in Lean strings) decode to U+FFFD. -/
def scalarOfNat (n : Nat) : Char :=
  if 0xD800 ≤ n && n < 0xE000 then Char.ofNat 0xFFFD else Char.ofNat n

/-- Four hexadecimal digits (the payload of a `\uXXXX` escape): their value
and the remainder. -/
def hexQuadOf : List Char → Option (Nat × List Char)
  | h1 :: h2 :: h3 :: h4 :: rest =>
    if isHexDigitChar h1 && isHexDigitChar h2 && isHexDigitChar h3 && isHexDigitChar h4 then
      some (hexQuad h1 h2 h3 h4, rest)
    else none
  | _ => none

/-- A `\uXXXX` escape carrying a low surrogate, used as the lookahead after
a high-surrogate escape. -/
def lowSurrogateOf : List Char → Option (Nat × List Char)
  | b :: u :: rest =>
    if b = '\\' && u = 'u' then
      match hexQuadOf rest with
      | some (m, rest') => if 0xDC00 ≤ m && m < 0xE000 then some (m, rest') else none
      | none => none
    else none
  | _ => none

/-- Decoding of the single-character JSON escapes (`\"`, `\\`, `\/`, `\b`,
`\f`, `\n`, `\r`, `\t`); `none` for an invalid escape character. -/
def escDecode (e : Char) : Option Char :=
  if e = '"' then some '"'
  else if e = '\\' then some '\\'
  else if e = '/' then some '/'
  else if e = 'b' then some (Char.ofNat 8)
  else if e = 'f' then some (Char.ofNat 12)
  else if e = 'n' then some '\n'
  else if e = 'r' then some (Char.ofNat 13)
  else if e = 't' then some '\t'
  else none

/-- Body of a JSON string literal after the opening quote: returns the
decoded characters and the remainder after the closing quote.  Surrogate
pairs in `\uXXXX` escapes are combined; raw control characters are a parse
error, as in `JSON.parse`.  The first argument is structural fuel; one unit
is spent per decoded character, so any fuel above the decoded length is
enough (in particular the input length is). -/
def parseStrBody : Nat → List Char → List Char → Option (String × List Char)
  | 0, _, _ => none
  | _, [], _ => none
  | f+1, c :: rest, acc =>
    if c = '"' then some (String.mk acc.reverse, rest)
    else if c = '\\' then
      match rest with
      | [] => none
      | e :: rest1 =>
        if e = 'u' then
          match hexQuadOf rest1 with
          | some (n, rest2) =>
            if 0xD800 ≤ n && n < 0xDC00 then
              match lowSurrogateOf rest2 with
              | some (m, rest3) =>
                parseStrBody f rest3
                  (Char.ofNat (0x10000 + (n - 0xD800) * 0x400 + (m - 0xDC00)) :: acc)
              | none => parseStrBody f rest2 (scalarOfNat n :: acc)
            else parseStrBody f rest2 (scalarOfNat n :: acc)
          | none => none
        else
          match escDecode e with
          | some d => parseStrBody f rest1 (d :: acc)
          | none => none
    else if c.toNat < 32 then none
    else parseStrBody f rest (c :: acc)

/-- Consume a run of decimal digits, accumulating their value. -/
def parseDigits : List Char → Nat → Nat × List Char
  | [], acc => (acc, [])
  | c :: cs, acc =>
    if c.isDigit then parseDigits cs (acc * 10 + (c.toNat - 48)) else (acc, c :: cs)

/-- Is `c` a character that would extend or alter a just-parsed integer
(JSON fraction/exponent syntax, which this model rejects)? -/
def isNumCont (c : Char) : Bool :=
  c.isDigit || c == '.' || c == 'e' || c == 'E'

/-- Parse the digits of a JSON number after the optional sign.  Enforces
the JSON leading-zero rule and rejects fractions and exponents (numbers in
this model are integers). -/
def parseNatPart : List Char → Option (Nat × List Char)
  | [] => none
  | c :: cs =>
    if c.isDigit then
      if (c == '0') && (match cs with | d :: _ => d.isDigit | [] => false) then none
      else
        let (n, rest) := parseDigits (c :: cs) 0
        match rest with
        | d :: _ => if d == '.' || d == 'e' || d == 'E' then none else some (n, rest)
        | [] => some (n, rest)
    else none

mutual
/-- Recursive-descent JSON value parser (the model of `JSON.parse`),
consuming leading whitespace; `fuel` is structural and any amount at least
`needV` of the parsed value (bounded by the input length) suffices. -/
def parseValue : Nat → List Char → Option (Json × List Char)
  | 0, _ => none
  | f+1, cs =>
    match skipWs cs with
    | 'n' :: 'u' :: 'l' :: 'l' :: rest => some (.null, rest)
    | 't' :: 'r' :: 'u' :: 'e' :: rest => some (.bool true, rest)
    | 'f' :: 'a' :: 'l' :: 's' :: 'e' :: rest => some (.bool false, rest)
    | '"' :: rest =>
      match parseStrBody (rest.length + 1) rest [] with
      | some (s, rest') => some (.str s, rest')
      | none => none
    | '-' :: rest =>
      match parseNatPart rest with
      | some (n, rest') => some (.num (-(n : Int)), rest')
      | none => none
    | c :: rest =>
      if c = lbrace then
        match skipWs rest with
        | d :: rest' =>
          if d = rbrace then some (.obj .nil, rest')
          else parseFields f (d :: rest')
        | [] => none
      else if c = '[' then
        match skipWs rest with
        | d :: rest' =>
          if d = ']' then some (.arr .nil, rest')
          else parseItems f (d :: rest')
        | [] => none
      else if c.isDigit then
        match parseNatPart (c :: rest) with
        | some (n, rest') => some (.num (n : Int), rest')
        | none => none
      else none
    | [] => none

/-- One or more `"key": value` members followed by `}` (entered after the
opening brace of a non-empty object). -/
def parseFields : Nat → List Char → Option (Json × List Char)
  | 0, _ => none
  | f+1, cs =>
    match skipWs cs with
    | [] => none
    | q :: rest =>
      if q = '"' then
        match parseStrBody (rest.length + 1) rest [] with
        | some (k, rest') =>
          match skipWs rest' with
          | [] => none
          | d :: rest'' =>
            if d = ':' then
              match parseValue f rest'' with
              | some (v, rest3) =>
                match skipWs rest3 with
                | [] => none
                | e :: rest4 =>
                  if e = ',' then
                    match parseFields f rest4 with
                    | some (.obj tl, rest5) => some (.obj (.cons k v tl), rest5)
                    | _ => none
                  else if e = rbrace then some (.obj (.cons k v .nil), rest4)
                  else none
              | none => none
            else none
        | none => none
      else none

/-- One or more array elements followed by `]` (entered after the opening
bracket of a non-empty array). -/
def parseItems : Nat → List Char → Option (Json × List Char)
  | 0, _ => none
  | f+1, cs =>
    match parseValue f cs with
    | some (v, rest) =>
      match skipWs rest with
      | [] => none
      | d :: rest' =>
        if d = ',' then
          match parseItems f rest' with
          | some (.arr tl, rest'') => some (.arr (.cons v tl), rest'')
          | _ => none
        else if d = ']' then some (.arr (.cons v .nil), rest')
        else none
    | none => none
end

/-- `JSON.parse` on a whole string: one value with nothing but whitespace
after it.  (Inputs `JSON.parse` accepts but this model rejects — numbers
with fractions/exponents — return `none` instead.) -/
def jsonParse (s : String) : Option Json :=
  match parseValue (s.data.length + 1) s.data with
  | some (v, rest) => if skipWs rest = [] then some v else none
  | none => none

example : jsonParse "null" = some .null := rfl
example : jsonParse " \x7b \x7d " = some (.obj .nil) := rfl
example : jsonParse "\x7b\"a\":1,\"b\":[true,\"x\"]\x7d"
    = some (.obj (.cons "a" (.num 1) (.cons "b" (.arr (.cons (.bool true) (.cons (.str "x") .nil))) .nil))) := rfl
example : jsonParse "\x7b\"a\":1.5\x7d" = none := rfl
example : jsonParse "-12" = some (.num (-12)) := rfl
example : (Json.obj (.cons "a" (.num 1) .nil)).stringify = "\x7b\"a\":1\x7d" := rfl
example : jsonParse "\"a\\nb\\u0041\"" = some (.str "a\nbA") := by decide

/-! ## Round-trip facts: numbers -/

/-- Characters produced by the decimal printer. -/
def digitForm (c : Char) : Prop := ∃ m, m < 10 ∧ c = Char.ofNat (48 + m)

theorem digitForm_isDigit {c : Char} (h : digitForm c) : c.isDigit = true := by
  obtain ⟨m, hm, rfl⟩ := h
  interval_cases m <;> decide

theorem digitForm_facts {c : Char} (h : digitForm c) :
    isJsonWs c = false ∧ c ≠ 'n' ∧ c ≠ 't' ∧ c ≠ 'f' ∧ c ≠ '"' ∧ c ≠ '-' ∧ c ≠ lbrace ∧
      c ≠ '[' ∧ c ≠ ']' ∧ c ≠ rbrace ∧ c ≠ ',' ∧ c ≠ ':' := by
  obtain ⟨m, hm, rfl⟩ := h
  interval_cases m <;> exact (by decide)

theorem natCharsAux_shape : ∀ f n, n ≤ f →
    ∃ m ds, m < 10 ∧ (1 ≤ n → 1 ≤ m) ∧ natCharsAux (f + 1) n = Char.ofNat (48 + m) :: ds ∧
      ∀ c ∈ ds, digitForm c := by
  intro f
  induction f with
  | zero =>
    intro n hn
    have hn0 : n = 0 := Nat.le_zero.mp hn
    subst hn0
    exact ⟨0, [], by omega, by omega, by simp [natCharsAux], by simp⟩
  | succ f ih =>
    intro n hn
    by_cases h10 : n < 10
    · exact ⟨n, [], h10, fun h => h, by simp [natCharsAux, h10], by simp⟩
    · have hrec : natCharsAux (f + 2) n = natCharsAux (f + 1) (n / 10) ++ [Char.ofNat (48 + n % 10)] := by
        simp [natCharsAux, h10]
      obtain ⟨m, ds, hm, hm1, hshape, hds⟩ := ih (n / 10) (by omega)
      refine ⟨m, ds ++ [Char.ofNat (48 + n % 10)], hm, fun _ => hm1 (by omega), ?_, ?_⟩
      · rw [hrec, hshape]; simp
      · intro c hc
        rcases List.mem_append.mp hc with h | h
        · exact hds c h
        · simp at h
          exact ⟨n % 10, by omega, h⟩

/-- The accumulator step of `parseDigits`. -/
def dstep (a : Nat) (c : Char) : Nat := a * 10 + (c.toNat - 48)

theorem digit_toNat : ∀ m, m < 10 → (Char.ofNat (48 + m)).toNat = 48 + m := by decide

theorem natCharsAux_foldl : ∀ f n acc, n ≤ f →
    (natCharsAux (f + 1) n).foldl dstep acc = acc * 10 ^ (natCharsAux (f + 1) n).length + n := by
  intro f
  induction f with
  | zero =>
    intro n acc hn
    have hn0 : n = 0 := Nat.le_zero.mp hn
    subst hn0
    simp [natCharsAux, dstep, digit_toNat 0 (by omega)]
  | succ f ih =>
    intro n acc hn
    by_cases h10 : n < 10
    · simp [natCharsAux, h10, dstep, digit_toNat n h10]
    · have hrec : natCharsAux (f + 2) n = natCharsAux (f + 1) (n / 10) ++ [Char.ofNat (48 + n % 10)] := by
        simp [natCharsAux, h10]
      rw [hrec]
      rw [List.foldl_append]
      rw [ih (n / 10) acc (by omega)]
      simp [dstep, digit_toNat (n % 10) (by omega)]
      rw [pow_succ]
      ring_nf
      omega

theorem parseDigits_append : ∀ (ds : List Char) acc rest, (∀ c ∈ ds, digitForm c) →
    (∀ c, rest.head? = some c → c.isDigit = false) →
    parseDigits (ds ++ rest) acc = (ds.foldl dstep acc, rest) := by
  intro ds
  induction ds with
  | nil =>
    intro acc rest _ hrest
    cases rest with
    | nil => simp [parseDigits]
    | cons c cs =>
      have := hrest c (by simp)
      simp [parseDigits, this]
  | cons c ds ih =>
    intro acc rest hds hrest
    have hdig := digitForm_isDigit (hds c (by simp))
    simp only [List.cons_append, parseDigits, hdig, if_true]
    rw [List.append_eq]
    rw [ih _ rest (fun c hc => hds c (by simp [hc])) hrest]
    simp [List.foldl, dstep]

/-- A list is a safe continuation after a serialized number: its head (if
any) cannot extend or alter the number. -/
def numDelim (rest : List Char) : Prop :=
  ∀ c, rest.head? = some c → isNumCont c = false

theorem numDelim_not_digit {rest : List Char} (h : numDelim rest) :
    ∀ c, rest.head? = some c → c.isDigit = false := by
  intro c hc
  have := h c hc
  simp [isNumCont] at this
  tauto

theorem parseNatPart_natChars (n : Nat) (rest : List Char) (h : numDelim rest) :
    parseNatPart (natChars n ++ rest) = some (n, rest) := by
  obtain ⟨m, ds, hm, hm1, hshape, hds⟩ := natCharsAux_shape n n le_rfl
  have hall : ∀ c ∈ natChars n, digitForm c := by
    intro c hc
    rw [natChars, hshape] at hc
    rcases List.mem_cons.mp hc with h | h
    · exact h ▸ ⟨m, hm, rfl⟩
    · exact hds c h
  have hfold : (natChars n).foldl dstep 0 = n := by
    have := natCharsAux_foldl n n 0 le_rfl
    rw [natChars, this]
    simp
  have hdigits := parseDigits_append (natChars n) 0 rest hall (numDelim_not_digit h)
  rw [natChars, hshape] at hdigits hfold ⊢
  simp only [List.cons_append]
  have hdig : (Char.ofNat (48 + m)).isDigit = true := digitForm_isDigit ⟨m, hm, rfl⟩
  have hguard : ((Char.ofNat (48 + m) == '0') &&
      (match ds ++ rest with | d :: _ => d.isDigit | [] => false)) = false := by
    by_cases hm0 : 1 ≤ m
    · have hb : (Char.ofNat (48 + m) == '0') = false := by
        interval_cases m <;> decide
      simp [hb]
    · have hmz : m = 0 := by omega
      subst hmz
      have hn0 : n = 0 := by
        by_contra hcon
        exact absurd (hm1 (by omega)) (by omega)
      subst hn0
      have hds0 : ds = [] := by
        have hconc : natCharsAux (0 + 1) 0 = [Char.ofNat (48 + 0)] := by simp [natCharsAux]
        rw [hconc] at hshape
        injection hshape with h1 h2
        exact h2.symm
      subst hds0
      simp only [List.nil_append]
      cases rest with
      | nil => simp
      | cons c cs =>
        have hcd := numDelim_not_digit h c (by simp)
        simp [hcd]
  simp only [parseNatPart, hdig, if_true, hguard, Bool.false_eq_true, if_false]
  simp only [List.cons_append] at hdigits
  rw [hdigits]
  simp only [hfold]
  cases rest with
  | nil => simp
  | cons c cs =>
    have hc := h c (by simp)
    have hor : (c == '.' || c == 'e' || c == 'E') = false := by
      simp [isNumCont] at hc ⊢
      tauto
    simp [hor]

/-! ## Round-trip facts: strings -/

theorem escChar_length_pos (c : Char) : 1 ≤ (escChar c).length := by
  unfold escChar
  repeat' split
  all_goals simp

theorem escChars_length_ge : ∀ cs : List Char, cs.length ≤ (escChars cs).length := by
  intro cs
  induction cs with
  | nil => simp [escChars]
  | cons c cs ih =>
    simp only [escChars, List.length_append, List.length_cons]
    have := escChar_length_pos c
    omega

theorem hexDigit_isHex : ∀ m, m < 16 → isHexDigitChar (hexDigit m) = true := by decide

theorem hexVal_hexDigit : ∀ m, m < 16 → hexVal (hexDigit m) = m := by decide

theorem parseStrBody_escChar (c : Char) (f : Nat) (tail acc : List Char) :
    parseStrBody (f + 1) (escChar c ++ tail) acc = parseStrBody f tail (c :: acc) := by
  by_cases h1 : c = '"'
  · subst h1; simp [escChar, parseStrBody, escDecode]
  · by_cases h2 : c = '\\'
    · subst h2; simp [escChar, parseStrBody, escDecode]
    · by_cases h3 : c = Char.ofNat 8
      · subst h3; simp [escChar, parseStrBody, escDecode]
      · by_cases h4 : c = '\t'
        · subst h4; simp [escChar, parseStrBody, escDecode]
        · by_cases h5 : c = '\n'
          · subst h5; simp [escChar, parseStrBody, escDecode]
          · by_cases h6 : c = Char.ofNat 12
            · subst h6; simp [escChar, parseStrBody, escDecode]
            · by_cases h7 : c = Char.ofNat 13
              · subst h7; simp [escChar, parseStrBody, escDecode]
              · by_cases h8 : c.toNat < 32
                · -- generic control character: the \u00XX escape
                  have hesc : escChar c =
                      ['\\', 'u', '0', '0', hexDigit (c.toNat / 16), hexDigit (c.toNat % 16)] := by
                    rw [escChar]
                    rw [if_neg h1, if_neg h2, if_neg h3, if_neg h4, if_neg h5, if_neg h6, if_neg h7,
                      if_pos h8]
                  have hhex1 : isHexDigitChar (hexDigit (c.toNat / 16)) = true :=
                    hexDigit_isHex _ (by omega)
                  have hhex2 : isHexDigitChar (hexDigit (c.toNat % 16)) = true :=
                    hexDigit_isHex _ (by omega)
                  have hq : hexQuad '0' '0' (hexDigit (c.toNat / 16)) (hexDigit (c.toNat % 16))
                      = c.toNat := by
                    rw [hexQuad, hexVal_hexDigit _ (by omega : c.toNat / 16 < 16),
                      hexVal_hexDigit _ (by omega : c.toNat % 16 < 16)]
                    have h0 : hexVal '0' = 0 := by decide
                    rw [h0]
                    omega
                  have h00 : isHexDigitChar '0' = true := by decide
                  have hsc : scalarOfNat c.toNat = c := by
                    rw [scalarOfNat]
                    rw [if_neg (by simp; omega)]
                    exact Char.ofNat_toNat c
                  have hD : (decide (0xD800 ≤ c.toNat) && decide (c.toNat < 0xDC00)) = false := by
                    simp
                    omega
                  rw [hesc]
                  simp only [List.cons_append, List.nil_append]
                  simp only [parseStrBody]
                  simp only [hexQuadOf, h00, hhex1, hhex2, Bool.and_self, Bool.true_and,
                    Bool.and_true, if_true]
                  simp only [hq, hD, hsc]
                  simp
                · -- ordinary character, emitted verbatim
                  have hesc : escChar c = [c] := by
                    rw [escChar]
                    rw [if_neg h1, if_neg h2, if_neg h3, if_neg h4, if_neg h5, if_neg h6, if_neg h7,
                      if_neg h8]
                  rw [hesc]
                  simp only [List.cons_append, List.nil_append]
                  simp only [parseStrBody]
                  rw [if_neg h1, if_neg h2, if_neg h8]

theorem parseStrBody_esc : ∀ (cs : List Char) (f : Nat) (acc rest : List Char),
    cs.length + 1 ≤ f →
    parseStrBody f (escChars cs ++ '"' :: rest) acc = some (String.mk (acc.reverse ++ cs), rest) := by
  intro cs
  induction cs with
  | nil =>
    intro f acc rest hf
    cases f with
    | zero => omega
    | succ f' =>
      simp only [escChars, List.nil_append]
      simp [parseStrBody]
  | cons c cs ih =>
    intro f acc rest hf
    cases f with
    | zero => omega
    | succ f' =>
      have hf' : cs.length + 1 ≤ f' := by simp at hf; omega
      rw [escChars, List.append_assoc, parseStrBody_escChar]
      rw [ih f' (c :: acc) rest hf']
      simp

/-! ## Round-trip: parse after stringify -/

theorem mk_data (s : String) : String.mk s.data = s := by cases s; rfl

mutual
/-- Fuel sufficient for `parseValue` on the serialization of a value. -/
def needV : Json → Nat
  | .null => 1
  | .bool _ => 1
  | .num _ => 1
  | .str _ => 1
  | .arr es => 1 + needI es
  | .obj fs => 1 + needF fs

/-- Fuel sufficient for `parseItems` on serialized array elements. -/
def needI : JsonItems → Nat
  | .nil => 0
  | .cons v tl => 1 + needV v + needI tl

/-- Fuel sufficient for `parseFields` on serialized object fields. -/
def needF : JsonFields → Nat
  | .nil => 0
  | .cons _ v tl => 1 + needV v + needF tl
end

theorem needV_pos (j : Json) : 1 ≤ needV j := by
  cases j <;> simp [needV]

theorem numDelim_cons {c : Char} (h : isNumCont c = false) (xs : List Char) :
    numDelim (c :: xs) := by
  intro d hd
  simp at hd
  subst hd
  exact h

theorem skipWs_cons {c : Char} (h : isJsonWs c = false) (cs : List Char) :
    skipWs (c :: cs) = c :: cs := by
  simp [skipWs, h]

theorem jcharsV_head (j : Json) :
    ∃ c cs, jcharsV j = c :: cs ∧ isJsonWs c = false ∧ c ≠ ']' ∧ c ≠ rbrace := by
  cases j with
  | null => refine ⟨'n', _, rfl, ?_, ?_, ?_⟩ <;> decide
  | bool b => cases b
              · refine ⟨'f', _, rfl, ?_, ?_, ?_⟩ <;> decide
              · refine ⟨'t', _, rfl, ?_, ?_, ?_⟩ <;> decide
  | num n =>
    by_cases hneg : n < 0
    · refine ⟨'-', natChars n.natAbs, ?_, by decide, by decide, by decide⟩
      simp [jcharsV, intChars, hneg]
    · obtain ⟨m, ds, hm, _, hshape, _⟩ := natCharsAux_shape n.toNat n.toNat le_rfl
      have hfacts := digitForm_facts (⟨m, hm, rfl⟩ : digitForm (Char.ofNat (48 + m)))
      refine ⟨Char.ofNat (48 + m), ds, ?_, hfacts.1, ?_, ?_⟩
      · simp [jcharsV, intChars, hneg, natChars, hshape]
      · exact hfacts.2.2.2.2.2.2.2.2.1
      · exact hfacts.2.2.2.2.2.2.2.2.2.1
  | str s => refine ⟨'"', _, rfl, ?_, ?_, ?_⟩ <;> decide
  | arr es => refine ⟨'[', _, rfl, ?_, ?_, ?_⟩ <;> decide
  | obj fs => refine ⟨lbrace, _, rfl, ?_, ?_, ?_⟩ <;> decide

theorem skipWs_comma (cs : List Char) : skipWs (',' :: cs) = ',' :: cs :=
  skipWs_cons (by decide) _

theorem skipWs_colon (cs : List Char) : skipWs (':' :: cs) = ':' :: cs :=
  skipWs_cons (by decide) _

theorem skipWs_quote (cs : List Char) : skipWs ('"' :: cs) = '"' :: cs :=
  skipWs_cons (by decide) _

theorem skipWs_rsq (cs : List Char) : skipWs (']' :: cs) = ']' :: cs :=
  skipWs_cons (by decide) _

theorem skipWs_rbrace (cs : List Char) : skipWs (rbrace :: cs) = rbrace :: cs :=
  skipWs_cons (by decide) _

/-- A specialization of `parseStrBody_esc` to the fuel the parser actually
passes (the remaining input length plus one). -/
theorem parseStrBody_esc_self (cs rest acc : List Char) :
    parseStrBody ((escChars cs ++ '"' :: rest).length + 1) (escChars cs ++ '"' :: rest) acc
      = some (String.mk (acc.reverse ++ cs), rest) := by
  apply parseStrBody_esc
  simp only [List.length_append, List.length_cons]
  have := escChars_length_ge cs
  omega

mutual
theorem parseValue_jchars (j : Json) : ∀ (f : Nat) (rest : List Char), needV j ≤ f →
    numDelim rest → parseValue f (jcharsV j ++ rest) = some (j, rest) := by
  intro f rest hf hrest
  cases f with
  | zero => exact absurd (Nat.le_trans (needV_pos j) hf) (by omega)
  | succ f =>
    cases j with
    | null => simp [jcharsV, parseValue, skipWs, isJsonWs]
    | bool b => cases b <;> simp [jcharsV, parseValue, skipWs, isJsonWs]
    | num n =>
      by_cases hneg : n < 0
      · simp only [jcharsV, intChars, if_pos hneg, List.cons_append]
        simp only [parseValue]
        rw [skipWs_cons (by decide)]
        simp only [reduceCtorEq, reduceIte]
        rw [parseNatPart_natChars n.natAbs rest hrest]
        have hv : -((n.natAbs : Int)) = n := by omega
        simp only [hv]
      · simp only [jcharsV, intChars, if_neg hneg, natChars]
        obtain ⟨m, ds, hm, _, hshape, hds⟩ := natCharsAux_shape n.toNat n.toNat le_rfl
        have hdf : digitForm (Char.ofNat (48 + m)) := ⟨m, hm, rfl⟩
        have hfacts := digitForm_facts hdf
        obtain ⟨hw, hn1, hn2, hn3, hn4, hn5, hn6, hn7, _⟩ := hfacts
        rw [hshape]
        simp only [List.cons_append]
        simp only [parseValue, skipWs, hw, Bool.false_eq_true, if_false]
        simp [hn1, hn2, hn3, hn4, hn5, hn6, hn7, digitForm_isDigit hdf]
        rw [← List.cons_append, ← hshape]
        have hpn : parseNatPart (natCharsAux (n.toNat + 1) n.toNat ++ rest) = some (n.toNat, rest) :=
          parseNatPart_natChars n.toNat rest hrest
        rw [hpn]
        simp [Int.toNat_of_nonneg (by omega : (0 : Int) ≤ n)]
    | str s =>
      simp only [jcharsV, strLitChars, List.cons_append, List.append_assoc, List.nil_append]
      simp only [parseValue]
      rw [skipWs_cons (by decide)]
      simp only [reduceCtorEq, reduceIte]
      rw [parseStrBody_esc s.data _ [] rest
        (by simp only [List.length_append, List.length_cons]
            have := escChars_length_ge s.data
            omega)]
      simp [mk_data]
    | arr es =>
      cases es with
      | nil =>
        have h1 : ('[' : Char) ≠ lbrace := by decide
        simp [jcharsV, jcharsItems, parseValue, skipWs, isJsonWs, h1]
      | cons v tl =>
        obtain ⟨c, cs, hhead, hwc, hcsq, hcrb⟩ := jcharsV_head v
        have hitems : ∃ cs2, jcharsItems (.cons v tl) = c :: cs2 := by
          cases tl with
          | nil => exact ⟨cs, by simp [jcharsItems, hhead]⟩
          | cons w tl' => exact ⟨cs ++ ',' :: jcharsItems (.cons w tl'), by
              simp [jcharsItems, hhead]⟩
        obtain ⟨cs2, hitems⟩ := hitems
        have h1 : ('[' : Char) ≠ lbrace := by decide
        simp only [jcharsV, List.cons_append, List.append_assoc]
        simp only [parseValue]
        rw [skipWs_cons (by decide)]
        rw [hitems]
        simp only [List.cons_append]
        simp [h1, skipWs_cons hwc, hcsq]
        rw [← List.cons_append, ← hitems]
        exact parseItems_jchars (.cons v tl) f rest (by simp) (by simp [needV] at hf; omega) hrest
    | obj fs =>
      have h1 : isJsonWs lbrace = false := by decide
      have hx1 : lbrace ≠ 'n' := by decide
      have hx2 : lbrace ≠ 't' := by decide
      have hx3 : lbrace ≠ 'f' := by decide
      have hx4 : lbrace ≠ '"' := by decide
      have hx5 : lbrace ≠ '-' := by decide
      cases fs with
      | nil =>
        have h2 : isJsonWs rbrace = false := by decide
        simp only [jcharsV, jcharsFields, List.nil_append, List.cons_append]
        simp only [parseValue]
        rw [skipWs_cons h1]
        simp [hx1, hx2, hx3, hx4, hx5, skipWs_cons h2]
      | cons k v tl =>
        have hfields : ∃ cs2, jcharsFields (.cons k v tl) = '"' :: cs2 := by
          cases tl with
          | nil =>
            refine ⟨escChars k.data ++ '"' :: ':' :: jcharsV v, ?_⟩
            simp [jcharsFields, strLitChars]
          | cons k' w tl' =>
            refine ⟨escChars k.data ++ '"' :: ':' ::
              (jcharsV v ++ ',' :: jcharsFields (.cons k' w tl')), ?_⟩
            simp [jcharsFields, strLitChars]
        obtain ⟨cs2, hfields⟩ := hfields
        have hqrb : ('"' : Char) ≠ rbrace := by decide
        simp only [jcharsV, List.cons_append, List.append_assoc]
        simp only [parseValue]
        rw [skipWs_cons h1]
        rw [hfields]
        simp only [List.cons_append]
        simp [hx1, hx2, hx3, hx4, hx5, skipWs_quote, hqrb]
        rw [← List.cons_append, ← hfields]
        exact parseFields_jchars (.cons k v tl) f rest (by simp) (by simp [needV] at hf; omega) hrest

theorem parseItems_jchars (es : JsonItems) : ∀ (f : Nat) (rest : List Char), es ≠ .nil →
    needI es ≤ f → numDelim rest →
    parseItems f (jcharsItems es ++ ']' :: rest) = some (.arr es, rest) := by
  intro f rest hne hf hrest
  cases f with
  | zero =>
    cases es with
    | nil => exact absurd rfl hne
    | cons v tl => exact absurd hf (by simp [needI])
  | succ f =>
    cases es with
    | nil => exact absurd rfl hne
    | cons v tl =>
      cases tl with
      | nil =>
        have hd1 : needV v ≤ f := by simp [needI] at hf; omega
        simp only [jcharsItems]
        simp only [parseItems]
        rw [parseValue_jchars v f (']' :: rest) hd1 (numDelim_cons (by decide) _)]
        simp [skipWs_rsq]
      | cons w tl' =>
        have hd1 : needV v ≤ f := by simp [needI] at hf; omega
        have hd2 : needI (.cons w tl') ≤ f := by simp [needI] at hf ⊢; omega
        simp only [jcharsItems, List.append_assoc, List.cons_append]
        simp only [parseItems]
        rw [parseValue_jchars v f (',' :: (jcharsItems (.cons w tl') ++ ']' :: rest)) hd1
          (numDelim_cons (by decide) _)]
        simp only [skipWs_comma, reduceCtorEq, reduceIte]
        rw [parseItems_jchars (.cons w tl') f rest (by simp) hd2 hrest]

theorem parseFields_jchars (fs : JsonFields) : ∀ (f : Nat) (rest : List Char), fs ≠ .nil →
    needF fs ≤ f → numDelim rest →
    parseFields f (jcharsFields fs ++ rbrace :: rest) = some (.obj fs, rest) := by
  intro f rest hne hf hrest
  cases f with
  | zero =>
    cases fs with
    | nil => exact absurd rfl hne
    | cons k v tl => exact absurd hf (by simp [needF])
  | succ f =>
    cases fs with
    | nil => exact absurd rfl hne
    | cons k v tl =>
      have hcomma : rbrace ≠ ',' := by decide
      cases tl with
      | nil =>
        have hd1 : needV v ≤ f := by simp [needF] at hf; omega
        simp only [jcharsFields, strLitChars, List.cons_append, List.append_assoc,
          List.nil_append]
        simp only [parseFields]
        rw [skipWs_quote]
        simp only [reduceIte]
        rw [parseStrBody_esc_self k.data (':' :: (jcharsV v ++ rbrace :: rest)) []]
        simp only [List.reverse_nil, List.nil_append, mk_data, skipWs_colon, reduceIte]
        rw [parseValue_jchars v f (rbrace :: rest) hd1 (numDelim_cons (by decide) _)]
        simp [skipWs_rbrace, hcomma]
      | cons k' w tl' =>
        have hd1 : needV v ≤ f := by simp [needF] at hf; omega
        have hd2 : needF (.cons k' w tl') ≤ f := by simp [needF] at hf ⊢; omega
        simp only [jcharsFields, strLitChars, List.cons_append, List.append_assoc,
          List.nil_append]
        simp only [parseFields]
        rw [skipWs_quote]
        simp only [reduceIte]
        rw [parseStrBody_esc_self k.data
          (':' :: (jcharsV v ++ ',' :: (jcharsFields (.cons k' w tl') ++ rbrace :: rest))) []]
        simp only [List.reverse_nil, List.nil_append, mk_data, skipWs_colon, reduceIte]
        rw [parseValue_jchars v f
          (',' :: (jcharsFields (.cons k' w tl') ++ rbrace :: rest)) hd1
          (numDelim_cons (by decide) _)]
        simp only [skipWs_comma, reduceCtorEq, reduceIte]
        rw [parseFields_jchars (.cons k' w tl') f rest (by simp) hd2 hrest]
end

mutual
theorem needV_le_len (j : Json) : needV j ≤ (jcharsV j).length := by
  cases j with
  | null => simp [needV, jcharsV]
  | bool b => cases b <;> simp [needV, jcharsV]
  | num n =>
    have h1 : 1 ≤ (jcharsV (.num n)).length := by
      obtain ⟨c, cs, hh, _⟩ := jcharsV_head (.num n)
      simp [hh]
    simpa [needV] using h1
  | str s => simp [needV, jcharsV, strLitChars]
  | arr es =>
    have := needI_le_len es
    simp [needV, jcharsV]
    omega
  | obj fs =>
    have := needF_le_len fs
    simp [needV, jcharsV]
    omega

theorem needI_le_len (es : JsonItems) : needI es ≤ (jcharsItems es).length + 1 := by
  cases es with
  | nil => simp [needI, jcharsItems]
  | cons v tl =>
    cases tl with
    | nil =>
      have := needV_le_len v
      simp [needI, jcharsItems]
      omega
    | cons w tl' =>
      have h1 := needV_le_len v
      have h2 := needI_le_len (.cons w tl')
      simp [needI, jcharsItems] at h2 ⊢
      omega

theorem needF_le_len (fs : JsonFields) : needF fs ≤ (jcharsFields fs).length + 1 := by
  cases fs with
  | nil => simp [needF, jcharsFields]
  | cons k v tl =>
    cases tl with
    | nil =>
      have := needV_le_len v
      simp [needF, jcharsFields]
      omega
    | cons k' w tl' =>
      have h1 := needV_le_len v
      have h2 := needF_le_len (.cons k' w tl')
      simp [needF, jcharsFields] at h2 ⊢
      omega
end

/-- `JSON.parse` is a left inverse of `JSON.stringify` on modelled values. -/
theorem jsonParse_stringify (j : Json) : jsonParse (Json.stringify j) = some j := by
  rw [jsonParse, Json.stringify]
  have hlen : needV j ≤ (jcharsV j).length + 1 := by
    have := needV_le_len j
    omega
  have hp := parseValue_jchars j ((jcharsV j).length + 1) [] hlen (by intro c hc; simp at hc)
  simp only [List.append_nil] at hp
  simp [hp, skipWs]

/-! ## `extractFirstJsonObject` (actionProtocol.js) -/

/-- The state of the balanced-brace scan of `extractFirstJsonObject`:
string-literal state, backslash-escape state, brace depth (an integer, as
the JavaScript counter may go negative on stray closing braces), and the
slice collected so far (`none` while no opening brace has been found;
`some` holds the collected characters in reverse). -/
structure ScanState where
  inString : Bool
  escapeNext : Bool
  depth : Int
  acc : Option (List Char)
deriving Repr, DecidableEq

/-- One character step of the `extractFirstJsonObject` loop: either the
next state or the returned slice. -/
def scanChar (st : ScanState) (c : Char) : ScanState ⊕ List Char :=
  let acc1 := st.acc.map fun a => c :: a
  if st.escapeNext then .inl { st with escapeNext := false, acc := acc1 }
  else if c = '\\' then .inl { st with escapeNext := true, acc := acc1 }
  else if c = '"' then .inl { st with inString := !st.inString, acc := acc1 }
  else if st.inString then .inl { st with acc := acc1 }
  else if c = lbrace then
    if st.depth = 0 then .inl { st with depth := st.depth + 1, acc := some [c] }
    else .inl { st with depth := st.depth + 1, acc := acc1 }
  else if c = rbrace then
    match acc1 with
    | some a =>
      if st.depth - 1 = 0 then .inr a.reverse
      else .inl { st with depth := st.depth - 1, acc := some a }
    | none => .inl { st with depth := st.depth - 1, acc := none }
  else .inl { st with acc := acc1 }

/-- The scan loop over the text. -/
def extractGo : ScanState → List Char → ScanState ⊕ List Char
  | st, [] => .inl st
  | st, c :: cs =>
    match scanChar st c with
    | .inl st' => extractGo st' cs
    | .inr out => .inr out

/-- `extractFirstJsonObject` of `src/agent/actionProtocol.js`: the first
balanced top-level brace group found by a left-to-right scan that tracks
string-literal state and backslash escapes. -/
def extractFirstJsonObject (text : String) : Option String :=
  match extractGo ⟨false, false, 0, none⟩ text.data with
  | .inl _ => none
  | .inr out => some (String.mk out)

theorem extractGo_append (a : List Char) : ∀ (st : ScanState) (b : List Char),
    extractGo st (a ++ b) =
      (match extractGo st a with
       | .inl st' => extractGo st' b
       | .inr out => .inr out) := by
  induction a with
  | nil => intro st b; simp [extractGo]
  | cons c cs ih =>
    intro st b
    simp only [List.cons_append, extractGo]
    cases scanChar st c with
    | inl st' => exact ih st' b
    | inr out => simp

/-- A character with no effect on the scanner state outside strings. -/
def plainChar (c : Char) : Prop :=
  c ≠ '\\' ∧ c ≠ '"' ∧ c ≠ lbrace ∧ c ≠ rbrace

theorem scanChar_plain {c : Char} (h : plainChar c) (d : Int) (acc : Option (List Char)) :
    scanChar ⟨false, false, d, acc⟩ c = .inl ⟨false, false, d, acc.map fun a => c :: a⟩ := by
  obtain ⟨h1, h2, h3, h4⟩ := h
  simp [scanChar, h1, h2, h3, h4]

theorem digitForm_plain {c : Char} (h : digitForm c) : plainChar c := by
  obtain ⟨m, hm, rfl⟩ := h
  interval_cases m <;> exact ⟨by decide, by decide, by decide, by decide⟩

theorem natChars_digitForm (n : Nat) : ∀ c ∈ natChars n, digitForm c := by
  obtain ⟨m, ds, hm, _, hshape, hds⟩ := natCharsAux_shape n n le_rfl
  intro c hc
  rw [natChars, hshape] at hc
  rcases List.mem_cons.mp hc with h | h
  · exact h ▸ ⟨m, hm, rfl⟩
  · exact hds c h

theorem extractGo_plains : ∀ (cs : List Char), (∀ c ∈ cs, plainChar c) →
    ∀ (d : Int) (a : List Char),
    extractGo ⟨false, false, d, some a⟩ cs = .inl ⟨false, false, d, some (cs.reverse ++ a)⟩ := by
  intro cs
  induction cs with
  | nil => intro _ d a; simp [extractGo]
  | cons c cs ih =>
    intro h d a
    simp only [extractGo, scanChar_plain (h c (by simp)) d (some a), Option.map_some', List.append_eq]
    rw [ih (fun c hc => h c (by simp [hc])) d (c :: a)]
    simp

/-- Characters of a serialized string-literal escape, scanned from inside a
string literal: the state is preserved and the characters are collected. -/
theorem extractGo_escChar (c : Char) (d : Int) (a : List Char) :
    extractGo ⟨true, false, d, some a⟩ (escChar c) =
      .inl ⟨true, false, d, some ((escChar c).reverse ++ a)⟩ := by
  by_cases h1 : c = '"'
  · subst h1; simp [escChar, extractGo, scanChar]
  · by_cases h2 : c = '\\'
    · subst h2; simp [escChar, extractGo, scanChar]
    · by_cases h3 : c = Char.ofNat 8
      · subst h3; simp [escChar, extractGo, scanChar]
      · by_cases h4 : c = '\t'
        · subst h4; simp [escChar, extractGo, scanChar]
        · by_cases h5 : c = '\n'
          · subst h5; simp [escChar, extractGo, scanChar]
          · by_cases h6 : c = Char.ofNat 12
            · subst h6; simp [escChar, extractGo, scanChar]
            · by_cases h7 : c = Char.ofNat 13
              · subst h7; simp [escChar, extractGo, scanChar]
              · by_cases h8 : c.toNat < 32
                · have hesc : escChar c =
                      ['\\', 'u', '0', '0', hexDigit (c.toNat / 16), hexDigit (c.toNat % 16)] := by
                    rw [escChar]
                    rw [if_neg h1, if_neg h2, if_neg h3, if_neg h4, if_neg h5, if_neg h6, if_neg h7,
                      if_pos h8]
                  have hh1 : hexDigit (c.toNat / 16) ≠ '\\' ∧ hexDigit (c.toNat / 16) ≠ '"' := by
                    have hlt : c.toNat / 16 < 16 := by omega
                    revert hlt
                    generalize c.toNat / 16 = m
                    intro hm
                    interval_cases m <;> exact ⟨by decide, by decide⟩
                  have hh2 : hexDigit (c.toNat % 16) ≠ '\\' ∧ hexDigit (c.toNat % 16) ≠ '"' := by
                    have hlt : c.toNat % 16 < 16 := by omega
                    revert hlt
                    generalize c.toNat % 16 = m
                    intro hm
                    interval_cases m <;> exact ⟨by decide, by decide⟩
                  rw [hesc]
                  simp [extractGo, scanChar, hh1.1, hh1.2, hh2.1, hh2.2]
                · have hesc : escChar c = [c] := by
                    rw [escChar]
                    rw [if_neg h1, if_neg h2, if_neg h3, if_neg h4, if_neg h5, if_neg h6, if_neg h7,
                      if_neg h8]
                  rw [hesc]
                  simp [extractGo, scanChar, h1, h2]

theorem extractGo_escChars (cs : List Char) : ∀ (d : Int) (a : List Char),
    extractGo ⟨true, false, d, some a⟩ (escChars cs) =
      .inl ⟨true, false, d, some ((escChars cs).reverse ++ a)⟩ := by
  induction cs with
  | nil => intro d a; simp [extractGo, escChars]
  | cons c cs ih =>
    intro d a
    simp only [escChars]
    rw [extractGo_append, extractGo_escChar]
    simp only []
    rw [ih]
    simp

theorem extractGo_strLit (s : String) (d : Int) (a : List Char) :
    extractGo ⟨false, false, d, some a⟩ (strLitChars s) =
      .inl ⟨false, false, d, some ((strLitChars s).reverse ++ a)⟩ := by
  have hq1 : scanChar ⟨false, false, d, some a⟩ '"' = .inl ⟨true, false, d, some ('"' :: a)⟩ := by
    simp [scanChar]
  simp only [strLitChars, extractGo, hq1, List.append_eq]
  rw [extractGo_append, extractGo_escChars]
  have hq2 : ∀ b, scanChar ⟨true, false, d, some b⟩ '"' = .inl ⟨false, false, d, some ('"' :: b)⟩ := by
    intro b
    simp [scanChar]
  simp only [extractGo, hq2]
  simp

mutual
theorem extractGo_jcharsV (j : Json) : ∀ (d : Int) (a : List Char), 1 ≤ d →
    extractGo ⟨false, false, d, some a⟩ (jcharsV j) =
      .inl ⟨false, false, d, some ((jcharsV j).reverse ++ a)⟩ := by
  intro d a hd
  cases j with
  | null =>
    refine extractGo_plains _ ?_ d a
    intro c hc
    simp only [jcharsV] at hc
    fin_cases hc <;> exact ⟨by decide, by decide, by decide, by decide⟩
  | bool b =>
    refine extractGo_plains _ ?_ d a
    intro c hc
    cases b <;> simp only [jcharsV] at hc <;> fin_cases hc <;>
      exact ⟨by decide, by decide, by decide, by decide⟩
  | num n =>
    refine extractGo_plains _ ?_ d a
    intro c hc
    simp only [jcharsV, intChars] at hc
    by_cases hneg : n < 0
    · rw [if_pos hneg] at hc
      rcases List.mem_cons.mp hc with h | h
      · subst h; exact ⟨by decide, by decide, by decide, by decide⟩
      · exact digitForm_plain (natChars_digitForm n.natAbs c h)
    · rw [if_neg hneg] at hc
      exact digitForm_plain (natChars_digitForm n.toNat c hc)
  | str s => exact extractGo_strLit s d a
  | arr es =>
    cases es with
    | nil =>
      refine extractGo_plains _ ?_ d a
      intro c hc
      simp only [jcharsV, jcharsItems, List.nil_append] at hc
      fin_cases hc <;> exact ⟨by decide, by decide, by decide, by decide⟩
    | cons v tl =>
      simp only [jcharsV]
      simp only [List.cons_append, extractGo,
        scanChar_plain (⟨by decide, by decide, by decide, by decide⟩ : plainChar '['),
        Option.map_some', List.append_eq]
      rw [extractGo_append, extractGo_jcharsItems (.cons v tl) d _ hd]
      simp only [extractGo,
        scanChar_plain (⟨by decide, by decide, by decide, by decide⟩ : plainChar ']'),
        Option.map_some', List.append_eq]
      simp
  | obj fs =>
    have hsb : scanChar ⟨false, false, d, some a⟩ lbrace =
        .inl ⟨false, false, d + 1, some (lbrace :: a)⟩ := by
      have h1 : lbrace ≠ '\\' := by decide
      have h2 : lbrace ≠ '"' := by decide
      have h3 : ¬ (d = 0) := by omega
      simp [scanChar, h1, h2, h3]
    simp only [jcharsV, List.cons_append, extractGo, hsb]
    rw [List.append_eq, extractGo_append, extractGo_jcharsFields fs (d + 1) _ (by omega)]
    have hse : scanChar ⟨false, false, d + 1, some ((jcharsFields fs).reverse ++ lbrace :: a)⟩
        rbrace = .inl ⟨false, false, d,
          some (rbrace :: ((jcharsFields fs).reverse ++ lbrace :: a))⟩ := by
      have h1 : rbrace ≠ '\\' := by decide
      have h2 : rbrace ≠ '"' := by decide
      have h3 : rbrace ≠ lbrace := by decide
      have h4 : ¬ (d + 1 - 1 = (0 : Int)) := by omega
      simp [scanChar, h1, h2, h3, h4]
      omega
    simp only [extractGo, hse]
    simp

theorem extractGo_jcharsItems (es : JsonItems) : ∀ (d : Int) (a : List Char), 1 ≤ d →
    extractGo ⟨false, false, d, some a⟩ (jcharsItems es) =
      .inl ⟨false, false, d, some ((jcharsItems es).reverse ++ a)⟩ := by
  intro d a hd
  cases es with
  | nil => simp [jcharsItems, extractGo]
  | cons v tl =>
    cases tl with
    | nil =>
      simp only [jcharsItems]
      exact extractGo_jcharsV v d a hd
    | cons w tl' =>
      simp only [jcharsItems]
      rw [extractGo_append, extractGo_jcharsV v d a hd]
      simp only [extractGo,
        scanChar_plain (⟨by decide, by decide, by decide, by decide⟩ : plainChar ','),
        Option.map_some', List.append_eq]
      rw [extractGo_jcharsItems (.cons w tl') d _ hd]
      simp

theorem extractGo_jcharsFields (fs : JsonFields) : ∀ (d : Int) (a : List Char), 1 ≤ d →
    extractGo ⟨false, false, d, some a⟩ (jcharsFields fs) =
      .inl ⟨false, false, d, some ((jcharsFields fs).reverse ++ a)⟩ := by
  intro d a hd
  cases fs with
  | nil => simp [jcharsFields, extractGo]
  | cons k v tl =>
    cases tl with
    | nil =>
      simp only [jcharsFields]
      rw [extractGo_append, extractGo_strLit k d a]
      simp only [extractGo,
        scanChar_plain (⟨by decide, by decide, by decide, by decide⟩ : plainChar ':'),
        Option.map_some', List.append_eq]
      rw [extractGo_jcharsV v d _ hd]
      simp
    | cons k' w tl' =>
      simp only [jcharsFields, List.append_assoc, List.cons_append]
      rw [extractGo_append, extractGo_strLit k d a]
      simp only [extractGo,
        scanChar_plain (⟨by decide, by decide, by decide, by decide⟩ : plainChar ':'),
        Option.map_some', List.append_eq]
      rw [extractGo_append, extractGo_jcharsV v d _ hd]
      simp only [extractGo,
        scanChar_plain (⟨by decide, by decide, by decide, by decide⟩ : plainChar ','),
        Option.map_some', List.append_eq]
      rw [extractGo_jcharsFields (.cons k' w tl') d _ hd]
      simp
end

/-! ## Top-level extraction of a serialized object after a clean prefix -/

theorem extractGo_obj_top (fs : JsonFields) (rest : List Char) :
    extractGo ⟨false, false, 0, none⟩ (jcharsV (.obj fs) ++ rest) =
      .inr (jcharsV (.obj fs)) := by
  have hsb : scanChar ⟨false, false, 0, none⟩ lbrace = .inl ⟨false, false, 1, some [lbrace]⟩ := by
    have h1 : lbrace ≠ '\\' := by decide
    have h2 : lbrace ≠ '"' := by decide
    simp [scanChar, h1, h2]
  simp only [jcharsV, List.cons_append, List.append_eq, List.append_assoc,
    List.singleton_append, extractGo, hsb]
  rw [extractGo_append, extractGo_jcharsFields fs 1 [lbrace] (by omega)]
  have hse : scanChar ⟨false, false, 1, some ((jcharsFields fs).reverse ++ [lbrace])⟩ rbrace
      = .inr (lbrace :: (jcharsFields fs ++ [rbrace])) := by
    have h1 : rbrace ≠ '\\' := by decide
    have h2 : rbrace ≠ '"' := by decide
    have h3 : rbrace ≠ lbrace := by decide
    simp [scanChar, h1, h2, h3]
  simp only [List.cons_append, extractGo, hse]

/-! ## Action protocol (src/agent/actionProtocol.js) -/

/-- A parsed agent action: a tool invocation request or a final answer. -/
inductive AgentAction where
  | tool (tool : String) (input : Json)
  | final (content : String)
deriving Repr, DecidableEq

/-- Is the value of JavaScript `object` type and truthy (an object or an
array; `null` has object type but is falsy and is excluded at every use
site by a truthiness test)? -/
def isObjType : Json → Bool
  | .obj _ => true
  | .arr _ => true
  | _ => false

mutual
/-- JavaScript `String(value)` coercion on modelled values (arrays join
their elements with commas, `null` elements becoming empty; objects print
as `[object Object]`). -/
def jsString : Json → String
  | .null => "null"
  | .bool true => "true"
  | .bool false => "false"
  | .num n => String.mk (intChars n)
  | .str s => s
  | .arr es => jsStringItems es
  | .obj _ => "[object Object]"

/-- `Array.prototype.toString` body: elements joined with commas. -/
def jsStringItems : JsonItems → String
  | .nil => ""
  | .cons v .nil => (match v with | .null => "" | _ => jsString v)
  | .cons v (.cons w tl) =>
    (match v with | .null => "" | _ => jsString v) ++ "," ++ jsStringItems (.cons w tl)
end

/-- `normalizeAction` of `actionProtocol.js`: normalizes arbitrary parsed
JSON into the strict action protocol. -/
def normalizeAction (value : Json) : Option AgentAction :=
  match value with
  | .obj _ | .arr _ =>
    let typeRaw := match lookupField value "type" with
      | some t => if jsTruthy t then jsString t else ""
      | none => ""
    let type := asciiLower (jsTrim typeRaw)
    if type = "final" then
      let content := match lookupField value "content" with
        | some (.str s) => s
        | _ => ""
      some (.final content)
    else if type = "tool" then
      let tool := match lookupField value "tool" with
        | some (.str s) => jsTrim s
        | _ => ""
      if tool = "" then none
      else
        let input := match lookupField value "input" with
          | some v => if jsTruthy v && isObjType v then v else Json.obj .nil
          | none => Json.obj .nil
        some (.tool tool input)
    else none
  | _ => none

/-- The backtick character. -/
def btick : Char := Char.ofNat 96

/-- Does the text start with a code fence (three backticks)?  Returns the
remainder after the fence. -/
def fenceAt : List Char → Option (List Char)
  | b1 :: b2 :: b3 :: rest =>
    if b1 = btick && b2 = btick && b3 = btick then some rest else none
  | _ => none

/-- Scan for the next closing fence; returns the content before it and the
remainder after it. -/
def findFenceClose : List Char → Option (List Char × List Char)
  | [] => none
  | c :: cs =>
    match fenceAt (c :: cs) with
    | some rest => some ([], rest)
    | none =>
      match findFenceClose cs with
      | some (content, after) => some (c :: content, after)
      | none => none

/-- All fenced-block matches of the global regex, in order (each match runs
from a fence to the next fence); fuel-structural, the text length bounds
the recursion. -/
def fencedMatches : Nat → List Char → List (List Char)
  | 0, _ => []
  | _+1, [] => []
  | f+1, c :: cs =>
    match fenceAt (c :: cs) with
    | some rest =>
      match findFenceClose rest with
      | some (content, after) =>
        ([btick, btick, btick] ++ content ++ [btick, btick, btick]) :: fencedMatches f after
      | none => []
    | none => fencedMatches f cs

/-- Drop a leading case-insensitive `json` tag (the greedy `(?:json)?` of
the fence-stripping replace). -/
def dropJsonTag : List Char → List Char
  | a :: b :: c :: d :: rest =>
    if asciiLowerChar a = 'j' && asciiLowerChar b = 's' && asciiLowerChar c = 'o'
        && asciiLowerChar d = 'n'
    then rest else a :: b :: c :: d :: rest
  | other => other

/-- The two `replace` calls applied to one fenced match: strip the opening
fence with its optional `json` tag and a trailing fence. -/
def stripFence (m : List Char) : List Char :=
  let rest := dropJsonTag (m.drop 3)
  match rest.reverse with
  | b1 :: b2 :: b3 :: rr =>
    if b1 = btick && b2 = btick && b3 = btick then rr.reverse else rest
  | _ => rest

/-- `collectJsonCandidates` of `actionProtocol.js`: the whole trimmed text
when brace-delimited, then each fenced block's stripped inner text, then
the first balanced brace group. -/
def collectJsonCandidates (rawText : String) : List String :=
  let text := jsTrim rawText
  if text = "" then []
  else
    (match text.data with
     | c :: _ => if c = lbrace ∧ text.data.getLast? = some rbrace then [text] else []
     | [] => []) ++
    ((fencedMatches (text.data.length + 1) text.data).map
      (fun m => String.mk (jsTrimChars (stripFence m)))).filter (· ≠ "") ++
    (match extractFirstJsonObject text with
     | some s => [s]
     | none => [])

/-- `parseAgentAction` of `actionProtocol.js`: the first candidate that
both parses as JSON and normalizes. -/
def parseAgentAction (rawText : String) : Option AgentAction :=
  (collectJsonCandidates rawText).findSome? fun cand =>
    match jsonParse cand with
    | some parsed => normalizeAction parsed
    | none => none

/-- The tool-result domain of the observation formatter: `ok` a boolean,
`output` a string, `error` a string or absent (JavaScript `null` and
`undefined` coincide for the formatter's truthiness test), `metadata` an
object or absent. -/
structure ToolResultV where
  ok : Bool
  output : String
  error : Option String
  metadata : Option JsonFields
deriving Repr, DecidableEq

/-- Concatenation of object field lists. -/
def appendFields : JsonFields → JsonFields → JsonFields
  | .nil, gs => gs
  | .cons k v tl, gs => .cons k v (appendFields tl gs)

/-- The JSON payload `formatToolObservation` builds: keys `tool`, `ok`,
`output`, `error` in insertion order, then `metadata` when present.
`result.error ? String(result.error) : null` maps an empty, absent or null
error to JSON `null`. -/
def formatPayload (toolName : String) (r : ToolResultV) : JsonFields :=
  let base : JsonFields :=
    .cons "tool" (.str toolName)
      (.cons "ok" (.bool r.ok)
        (.cons "output" (.str r.output)
          (.cons "error" (match r.error with
            | some e => if e = "" then Json.null else .str e
            | none => Json.null) .nil)))
  match r.metadata with
  | some md => appendFields base (.cons "metadata" (.obj md) .nil)
  | none => base

/-- `formatToolObservation` of `actionProtocol.js`. -/
def formatToolObservation (toolName : String) (r : ToolResultV) : String :=
  "TOOL_RESULT\n" ++ (Json.obj (formatPayload toolName r)).stringify

/-! ## Transcript builder (src/agent/historyAdapter.js) -/

/-- A role-tagged chat message. -/
inductive ChatMessage where
  | user (text : String)
  | assistant (text : String)
deriving Repr, DecidableEq

/-- `extractRequestText`: the trimmed prompt string of a history turn, or
empty when the turn is not an object or carries no string prompt. -/
def extractRequestText (turn : Json) : String :=
  match lookupField turn "prompt" with
  | some (.str s) => jsTrim s
  | _ => ""

/-- `extractResponsePartText`: text of one response-part variant
(`{value: string}`, `{value: {value: string}}`, `{text: string}`); empty
for anything else, including plain strings, which are not objects. -/
def extractResponsePartText (part : Json) : String :=
  match part with
  | .obj _ | .arr _ =>
    match lookupField part "value" with
    | some (.str s) => s
    | pv =>
      match (match pv with
             | some v => if jsTruthy v && isObjType v then lookupField v "value" else none
             | none => none) with
      | some (.str s2) => s2
      | _ =>
        match lookupField part "text" with
        | some (.str t) => t
        | _ => ""
  | _ => ""

/-- `extractResponseText`: non-empty part texts joined with newlines and
trimmed; empty when the turn's `response` is not an array. -/
def extractResponseText (turn : Json) : String :=
  match lookupField turn "response" with
  | some (.arr items) =>
    jsTrim (String.intercalate "\n"
      ((items.toList.map extractResponsePartText).filter (· ≠ "")))
  | _ => ""

/-- `toModelMessages` of `historyAdapter.js`: one `User` message per turn
with a non-blank prompt, else one `Assistant` message per turn with
non-empty response text, in order. -/
def toModelMessages : List Json → List ChatMessage
  | [] => []
  | turn :: rest =>
    if extractRequestText turn ≠ "" then
      .user (extractRequestText turn) :: toModelMessages rest
    else if extractResponseText turn ≠ "" then
      .assistant (extractResponseText turn) :: toModelMessages rest
    else toModelMessages rest

/-! ## Tool registry (src/tools/toolRegistry.js) -/

/-- A registered tool: a name and an execute handler whose `Except.error`
models a thrown JavaScript exception carrying the given message. -/
structure ToolDef where
  name : String
  execute : Json → Except String ToolResultV

/-- `ToolRegistry.execute`: unknown names produce a failure result that
enumerates the registered names; a handler's thrown exception is caught
and converted to `{ok: false, error: message}`.  Tool names are unique in
the registry (the `Map` overwrites on re-registration), so first-match
lookup models `Map.get`. -/
def registryExecute (tools : List ToolDef) (toolName : String) (input : Json) : ToolResultV :=
  match tools.find? (fun t => t.name == toolName) with
  | none =>
    { ok := false, output := "",
      error := some ("Unknown tool \"" ++ toolName ++ "\". Available: "
        ++ String.intercalate ", " (tools.map (fun t => t.name))),
      metadata := none }
  | some t =>
    match t.execute (if jsTruthy input then input else Json.obj .nil) with
    | .ok r => r
    | .error msg => { ok := false, output := "", error := some msg, metadata := none }

/-! ## Agent loop (src/agent/agentModeRunner.js) -/

/-- JavaScript `\w`: ASCII letters, digits and underscore. -/
def isWordChar (c : Char) : Bool :=
  ('a' ≤ c && c ≤ 'z') || ('A' ≤ c && c ≤ 'Z') || ('0' ≤ c && c ≤ '9') || c = '_'

/-- Match a literal pattern at the head of the text, returning the
remainder. -/
def dropPrefixChars : List Char → List Char → Option (List Char)
  | [], cs => some cs
  | _ :: _, [] => none
  | p :: ps, c :: cs => if c = p then dropPrefixChars ps cs else none

/-- No word character follows (the `\b` after an alternative ending in a
word character). -/
def noWordAfter : List Char → Bool
  | [] => true
  | c :: _ => !(isWordChar c)

/-- Regex `\bpat\b` for a pattern that begins and ends with word
characters: scan every boundary position.  The Boolean argument is
whether the previous character was a word character. -/
def containsWordAux (pat : List Char) : List Char → Bool → Bool
  | [], _ => false
  | c :: cs, prevW =>
    (if prevW then false
     else match dropPrefixChars pat (c :: cs) with
       | some rest => noWordAfter rest
       | none => false)
    || containsWordAux pat cs (isWordChar c)

/-- `\bpat\b` on strings. -/
def containsWord (pat text : String) : Bool :=
  containsWordAux pat.data text.data false

/-- A line terminator, which JavaScript `.` does not match. -/
def isLineTerm (c : Char) : Bool :=
  c = '\n' || c = Char.ofNat 13 || c.toNat = 0x2028 || c.toNat = 0x2029

/-- Scan (without crossing a line terminator, as `.` requires) for
`api proposal` followed by a non-word character. -/
def findApiProposalAfter : List Char → Bool
  | [] => false
  | c :: cs =>
    if isLineTerm c then false
    else
      (match dropPrefixChars ('a' :: 'p' :: 'i' :: ' ' :: 'p' :: 'r' :: 'o' :: 'p' :: 'o' :: 's' :: 'a' :: 'l' :: []) (c :: cs) with
       | some rest => noWordAfter rest
       | none => false)
      || findApiProposalAfter cs

/-- Regex alternative `required.*api proposal` inside `\b(...)\b`. -/
def containsReqApiAux : List Char → Bool → Bool
  | [], _ => false
  | c :: cs, prevW =>
    (if prevW then false
     else match dropPrefixChars ('r' :: 'e' :: 'q' :: 'u' :: 'i' :: 'r' :: 'e' :: 'd' :: []) (c :: cs) with
       | some rest => findApiProposalAfter rest
       | none => false)
    || containsReqApiAux cs (isWordChar c)

/-- `required.*api proposal` on strings. -/
def containsReqApi (text : String) : Bool :=
  containsReqApiAux text.data false

/-- The word `can't` (with its apostrophe) as a character list. -/
def cantChars : List Char := 'c' :: 'a' :: 'n' :: Char.ofNat 39 :: 't' :: []

/-- `looksLikeSearchCapabilityRefusal` of `agentModeRunner.js`: the content
mentions search or workspace, and carries a refusal signal
(`unavailable`, `not enabled`, `cannot`, `can't`,
`required.*api proposal`, or `permission(s)`), both tested on the
lower-cased text with `\b` word boundaries. -/
def looksLikeSearchCapabilityRefusal (content : String) : Bool :=
  let text := asciiLower content
  let mentionsSearch := containsWord "search" text || containsWord "workspace" text
  let refusalSignal := containsWord "unavailable" text || containsWord "not enabled" text
    || containsWord "cannot" text || containsWordAux cantChars text.data false
    || containsReqApi text
    || containsWord "permission" text || containsWord "permissions" text
  mentionsSearch && refusalSignal

/-- The mutable per-request loop counters of `handleRequest`
(lines 134–137). -/
structure LoopState where
  previousToolSignature : String
  repeatedToolCallCount : Nat
  parseFailureCount : Nat
  capabilityRefusalRetryCount : Nat
deriving Repr, DecidableEq

/-- The repeat-detection signature
`${action.tool}:${JSON.stringify(action.input || {})}` (line 174). -/
def toolSignature (tool : String) (input : Json) : String :=
  tool ++ ":" ++ (if jsTruthy input then input else Json.obj .nil).stringify

/-- The corrective instruction appended after an unparsable completion. -/
def invalidFormatMessage : String :=
  "Invalid response format. Reply with exactly one JSON object using either \x7b\"type\":\"tool\",\"tool\":\"...\",\"input\":\x7b...\x7d\x7d or \x7b\"type\":\"final\",\"content\":\"...\"\x7d"

/-- The error text of the synthetic observation injected for a blocked
repeated tool call. -/
def repeatBlockMessage : String :=
  "Identical tool call repeated too many times. Use different input/tool or return a final response."

/-- The corrective instruction appended after a detected capability
refusal. -/
def refusalGuardMessage : String :=
  "Workspace search is available through search_text. Do not refuse for missing search capability. Use tools and continue."

/-- Outcome of one loop iteration (lines 140–203): either a terminal
emission to the user, or the next state together with the messages
appended for the next model call and the tool call executed (if any). -/
inductive IterOutcome where
  | emit (text : String)
  | next (st : LoopState) (appended : List ChatMessage) (executedTool : Option (String × Json))
deriving Repr, DecidableEq

/-- One iteration of the agent loop body (lines 140–203): model completion
`rawResponse` is parsed; an unparsable completion increments the parse
failure counter and either degrades to emitting the raw text (second
consecutive failure) or appends a corrective instruction; a `final` action
either triggers the single capability-refusal retry or is emitted; a
`tool` action updates the repeat signature and count, is blocked with a
synthetic failed observation on the third-or-later identical consecutive
call, and is otherwise executed through the registry. -/
def iterationStep (toolExec : String → Json → ToolResultV) (st : LoopState)
    (rawResponse : String) : IterOutcome :=
  match parseAgentAction rawResponse with
  | none =>
    let pfc := st.parseFailureCount + 1
    if pfc ≥ 2 then .emit rawResponse
    else .next { st with parseFailureCount := pfc }
      [.assistant rawResponse, .user invalidFormatMessage] none
  | some (.final content) =>
    if looksLikeSearchCapabilityRefusal content = true ∧ st.capabilityRefusalRetryCount < 1 then
      let st' := { st with
        parseFailureCount := 0
        capabilityRefusalRetryCount := st.capabilityRefusalRetryCount + 1 }
      .next st' [.assistant rawResponse, .user refusalGuardMessage] none
    else .emit (if content = "" then "Done." else content)
  | some (.tool tool input) =>
    let currentToolSignature := toolSignature tool input
    let updated :=
      if currentToolSignature = st.previousToolSignature
      then (st.previousToolSignature, st.repeatedToolCallCount + 1)
      else (currentToolSignature, 1)
    let st' := { st with
      parseFailureCount := 0
      previousToolSignature := updated.1
      repeatedToolCallCount := updated.2 }
    if updated.2 > 2 then
      .next st'
        [.assistant rawResponse,
         .user (formatToolObservation tool ⟨false, "", some repeatBlockMessage, none⟩)] none
    else
      .next st'
        [.assistant rawResponse, .user (formatToolObservation tool (toolExec tool input))]
        (some (tool, input))

/-- The loop of `handleRequest` (lines 139–219): `completions k` is the
text of the `k`-th model completion, `n` the remaining iteration budget;
returns the emitted terminal text and the total number of model calls.
After the budget is exhausted, exactly one forced-completion call is made;
its `final` content, or otherwise its raw text, is emitted. -/
def runLoopAux (toolExec : String → Json → ToolResultV) (completions : Nat → String) :
    Nat → Nat → LoopState → String × Nat
  | callIdx, 0, _ =>
    let finalAttempt := completions callIdx
    (match parseAgentAction finalAttempt with
     | some (.final content) => content
     | _ => finalAttempt,
     callIdx + 1)
  | callIdx, n+1, st =>
    let raw := completions callIdx
    match iterationStep toolExec st raw with
    | .emit t => (t, callIdx + 1)
    | .next st' _ _ => runLoopAux toolExec completions (callIdx + 1) n st'

/-- The loop counters all start at zero (lines 134–137). -/
def initialLoopState : LoopState := ⟨"", 0, 0, 0⟩

/-- The agent loop of `handleRequest` for one request: at most
`maxIterations` iterations followed by the forced completion. -/
def runAgentLoop (toolExec : String → Json → ToolResultV) (completions : Nat → String)
    (maxIterations : Nat) : String × Nat :=
  runLoopAux toolExec completions 0 maxIterations initialLoopState

/-! ## Claim theorems -/

theorem runLoopAux_calls (toolExec : String → Json → ToolResultV) (completions : Nat → String) :
    ∀ (n k : Nat) (st : LoopState),
    (runLoopAux toolExec completions k n st).2 ≤ k + n + 1 := by
  intro n
  induction n with
  | zero => intro k st; simp [runLoopAux]
  | succ n ih =>
    intro k st
    simp only [runLoopAux]
    cases iterationStep toolExec st (completions k) with
    | emit t => simp
    | next st' msgs ex =>
      have := ih (k + 1) st'
      simp only []
      omega

/-- **C2**: for every request (any tool behavior and any sequence of model
completions, parsable or not) the agent loop of `handleRequest` makes at
most `maxIterations + 1` model calls before reaching its terminal
outcome. -/
theorem claim2_loop_model_call_bound (toolExec : String → Json → ToolResultV)
    (completions : Nat → String) (maxIterations : Nat) :
    (runAgentLoop toolExec completions maxIterations).2 ≤ maxIterations + 1 := by
  have := runLoopAux_calls toolExec completions maxIterations 0 initialLoopState
  simpa [runAgentLoop] using this

/-- **C3**: when a parsed `Tool` action's signature equals the immediately
preceding one and the consecutive-repeat count exceeds 2 (the third or
later identical consecutive call), the loop body does not execute the tool
(`executedTool` is `none`), appends the synthetic failed observation
(`ok:false` with the vary-your-approach error), and continues to the next
model call. -/
theorem claim3_repeat_guard_blocks (toolExec : String → Json → ToolResultV)
    (st : LoopState) (raw tool : String) (input : Json)
    (hparse : parseAgentAction raw = some (.tool tool input))
    (hsig : toolSignature tool input = st.previousToolSignature)
    (hcount : st.repeatedToolCallCount + 1 > 2) :
    iterationStep toolExec st raw =
      .next ⟨st.previousToolSignature, st.repeatedToolCallCount + 1, 0,
          st.capabilityRefusalRetryCount⟩
        [.assistant raw,
         .user (formatToolObservation tool ⟨false, "", some repeatBlockMessage, none⟩)]
        none := by
  simp [iterationStep, hparse, hsig, hcount]

/-- Witness for **C3** at a concrete state and completion. -/
theorem claim3_repeat_guard_blocks_witness :
    iterationStep (fun _ _ => ⟨true, "", none, none⟩)
      ⟨toolSignature "t" (Json.obj .nil), 2, 0, 0⟩
      "\x7b\"type\":\"tool\",\"tool\":\"t\"\x7d" =
      .next ⟨toolSignature "t" (Json.obj .nil), 3, 0, 0⟩
        [.assistant "\x7b\"type\":\"tool\",\"tool\":\"t\"\x7d",
         .user (formatToolObservation "t" ⟨false, "", some repeatBlockMessage, none⟩)]
        none :=
  claim3_repeat_guard_blocks (fun _ _ => ⟨true, "", none, none⟩)
    ⟨toolSignature "t" (Json.obj .nil), 2, 0, 0⟩
    "\x7b\"type\":\"tool\",\"tool\":\"t\"\x7d" "t" (Json.obj .nil)
    (by decide) rfl (by decide)

/-- **C9**: the capability-refusal guard triggers at most one corrective
retry per request.  First conjunct: once `capabilityRefusalRetryCount` has
reached 1, every parsed `Final` action is emitted as the terminal answer
(whether or not it matches the refusal heuristic).  Second conjunct: any
continuing iteration either leaves the counter unchanged or moves it from
0 to 1, so it can never exceed 1 and the retry fires at most once. -/
theorem claim9_refusal_retry_budget :
    (∀ (toolExec : String → Json → ToolResultV) (st : LoopState) (raw content : String),
      parseAgentAction raw = some (.final content) →
      1 ≤ st.capabilityRefusalRetryCount →
      iterationStep toolExec st raw = .emit (if content = "" then "Done." else content))
    ∧ (∀ (toolExec : String → Json → ToolResultV) (st : LoopState) (raw : String)
        (st' : LoopState) (msgs : List ChatMessage) (ex : Option (String × Json)),
      iterationStep toolExec st raw = .next st' msgs ex →
      st'.capabilityRefusalRetryCount = st.capabilityRefusalRetryCount ∨
        (st.capabilityRefusalRetryCount = 0 ∧ st'.capabilityRefusalRetryCount = 1)) := by
  constructor
  · intro toolExec st raw content hparse hcap
    simp only [iterationStep, hparse]
    rw [if_neg (by omega : ¬(looksLikeSearchCapabilityRefusal content = true
      ∧ st.capabilityRefusalRetryCount < 1))]
  · intro toolExec st raw st' msgs ex hstep
    simp only [iterationStep] at hstep
    cases hp : parseAgentAction raw with
    | none =>
      rw [hp] at hstep
      simp only [] at hstep
      by_cases h2 : st.parseFailureCount + 1 ≥ 2
      · rw [if_pos h2] at hstep; exact absurd hstep (by simp)
      · rw [if_neg h2] at hstep
        left
        cases hstep
        rfl
    | some a =>
      rw [hp] at hstep
      cases a with
      | final content =>
        simp only [] at hstep
        by_cases hc : looksLikeSearchCapabilityRefusal content = true
            ∧ st.capabilityRefusalRetryCount < 1
        · rw [if_pos hc] at hstep
          right
          cases hstep
          constructor
          · omega
          · simp; omega
        · rw [if_neg hc] at hstep
          exact absurd hstep (by simp)
      | tool tool input =>
        simp only [] at hstep
        by_cases hr : (if toolSignature tool input = st.previousToolSignature
            then (st.previousToolSignature, st.repeatedToolCallCount + 1)
            else (toolSignature tool input, 1)).2 > 2
        · rw [if_pos hr] at hstep
          left
          cases hstep
          rfl
        · rw [if_neg hr] at hstep
          left
          cases hstep
          rfl

/-- Witness for **C9** at concrete inputs: a `Final` answer that still
matches the refusal heuristic is emitted once the retry counter is 1, and
a continuing tool iteration leaves the counter unchanged. -/
theorem claim9_refusal_retry_budget_witness :
    iterationStep (fun _ _ => ⟨true, "", none, none⟩) ⟨"", 0, 0, 1⟩
      "\x7b\"type\":\"final\",\"content\":\"search is unavailable\"\x7d" =
      .emit "search is unavailable" ∧
    ((⟨toolSignature "t" (Json.obj .nil), 1, 0, 0⟩ : LoopState).capabilityRefusalRetryCount
        = (initialLoopState : LoopState).capabilityRefusalRetryCount ∨
      ((initialLoopState : LoopState).capabilityRefusalRetryCount = 0 ∧
        (⟨toolSignature "t" (Json.obj .nil), 1, 0, 0⟩ : LoopState).capabilityRefusalRetryCount = 1)) := by
  constructor
  · have h := claim9_refusal_retry_budget.1 (fun _ _ => ⟨true, "", none, none⟩) ⟨"", 0, 0, 1⟩
      "\x7b\"type\":\"final\",\"content\":\"search is unavailable\"\x7d" "search is unavailable"
      (by decide) (by decide)
    simpa using h
  · exact claim9_refusal_retry_budget.2 (fun _ _ => ⟨true, "", none, none⟩) initialLoopState
      "\x7b\"type\":\"tool\",\"tool\":\"t\"\x7d"
      ⟨toolSignature "t" (Json.obj .nil), 1, 0, 0⟩
      [.assistant "\x7b\"type\":\"tool\",\"tool\":\"t\"\x7d",
       .user (formatToolObservation "t" ⟨true, "", none, none⟩)]
      (some ("t", Json.obj .nil))
      (by decide)

theorem string_data_append (s t : String) : (s ++ t).data = s.data ++ t.data := rfl

theorem string_append_left_cancel {a b c : String} (h : a ++ b = a ++ c) : b = c := by
  have hd : a.data ++ b.data = a.data ++ c.data := by
    have := congrArg String.data h
    simpa [string_data_append] using this
  have hbc : b.data = c.data := List.append_cancel_left hd
  calc b = String.mk b.data := (mk_data b).symm
    _ = String.mk c.data := by rw [hbc]
    _ = c := mk_data c

/-- Counterexample for **C1**: the same tool with the two key orders of
the same JSON object (`a` before `b`, and `b` before `a`) produces two
different repeat-detection signatures, because the signature uses plain
`JSON.stringify` of the parsed input, which preserves key insertion
order. -/
theorem claim1_signature_key_order_counterexample :
    toolSignature "t" (Json.obj (.cons "a" (.num 1) (.cons "b" (.num 2) .nil)))
      ≠ toolSignature "t" (Json.obj (.cons "b" (.num 2) (.cons "a" (.num 1) .nil))) := by
  decide

/-- **C1 (amended)**: the repeat-detection signature of `handleRequest` is
`tool + ":" + JSON.stringify(input || {})`; two calls to the same tool
count as identical exactly when the serializations of their inputs
coincide.  Serialization preserves key insertion order, so inputs that are
equal as JSON objects but arrive with different key orders produce
different signatures and do not count as consecutive identical calls. -/
theorem claim1_signature_serialization (t : String) (i1 i2 : Json) :
    toolSignature t i1 = toolSignature t i2 ↔
      (if jsTruthy i1 then i1 else Json.obj .nil).stringify
        = (if jsTruthy i2 then i2 else Json.obj .nil).stringify := by
  constructor
  · intro h
    simp only [toolSignature] at h
    rw [String.append_assoc, String.append_assoc] at h
    have h2 := string_append_left_cancel h
    exact string_append_left_cancel h2
  · intro h
    simp only [toolSignature, h]

/-- **C4**: two consecutive unparsable completions end the loop with the
second completion's raw text emitted verbatim after exactly two model
calls (first conjunct), and any successfully parsed completion resets
`parseFailureCount` to 0 in the continuing state, so non-consecutive
failures never accumulate (second conjunct). -/
theorem claim4_parse_failure_degradation :
    (∀ (toolExec : String → Json → ToolResultV) (completions : Nat → String)
        (maxIterations : Nat),
      1 ≤ maxIterations →
      parseAgentAction (completions 0) = none →
      parseAgentAction (completions 1) = none →
      runAgentLoop toolExec completions maxIterations = (completions 1, 2))
    ∧ (∀ (toolExec : String → Json → ToolResultV) (st : LoopState) (raw : String)
        (a : AgentAction) (st' : LoopState) (msgs : List ChatMessage)
        (ex : Option (String × Json)),
      parseAgentAction raw = some a →
      iterationStep toolExec st raw = .next st' msgs ex →
      st'.parseFailureCount = 0) := by
  constructor
  · intro toolExec completions maxIterations hmax hp0 hp1
    cases maxIterations with
    | zero => omega
    | succ n =>
      have hstep0 : iterationStep toolExec initialLoopState (completions 0) =
          .next ⟨"", 0, 1, 0⟩ [.assistant (completions 0), .user invalidFormatMessage] none := by
        simp [iterationStep, hp0, initialLoopState]
      cases n with
      | zero =>
        simp only [runAgentLoop, runLoopAux, hstep0, hp1]
      | succ m =>
        have hstep1 : iterationStep toolExec ⟨"", 0, 1, 0⟩ (completions 1) =
            .emit (completions 1) := by
          simp [iterationStep, hp1]
        simp only [runAgentLoop, runLoopAux, hstep0, hstep1]
  · intro toolExec st raw a st' msgs ex hparse hstep
    cases a with
    | final content =>
      simp only [iterationStep, hparse] at hstep
      split at hstep
      · simp only [IterOutcome.next.injEq] at hstep
        obtain ⟨h1, -, -⟩ := hstep
        rw [← h1]
      · simp at hstep
    | tool tool input =>
      by_cases hs : toolSignature tool input = st.previousToolSignature <;>
        by_cases hr : 2 < st.repeatedToolCallCount + 1 <;>
        simp [iterationStep, hparse, hs, hr] at hstep <;>
        (obtain ⟨h1, -, -⟩ := hstep; rw [← h1])

/-- Witness for **C4**: an always-unparsable completion stream stops after
two calls emitting the second raw text, and a parsed tool action continues
with `parseFailureCount = 0`. -/
theorem claim4_parse_failure_degradation_witness :
    runAgentLoop (fun _ _ => ⟨true, "", none, none⟩) (fun _ => "not json") 3
      = ("not json", 2) ∧
    (⟨toolSignature "t" (Json.obj .nil), 1, 0, 0⟩ : LoopState).parseFailureCount = 0 := by
  constructor
  · exact claim4_parse_failure_degradation.1 (fun _ _ => ⟨true, "", none, none⟩)
      (fun _ => "not json") 3 (by decide) (by decide) (by decide)
  · exact claim4_parse_failure_degradation.2 (fun _ _ => ⟨true, "", none, none⟩)
      initialLoopState "\x7b\"type\":\"tool\",\"tool\":\"t\"\x7d"
      (.tool "t" (Json.obj .nil))
      ⟨toolSignature "t" (Json.obj .nil), 1, 0, 0⟩
      [.assistant "\x7b\"type\":\"tool\",\"tool\":\"t\"\x7d",
       .user (formatToolObservation "t" ⟨true, "", none, none⟩)]
      (some ("t", Json.obj .nil))
      (by decide) (by decide)

/-- **C8**: `ToolRegistry.execute` never propagates a raw exception: an
unregistered tool name yields `ok:false` with an error enumerating every
registered tool name (first conjunct), and a registered tool whose handler
throws yields `ok:false` carrying the exception message (second
conjunct). -/
theorem claim8_registry_execute_errors :
    (∀ (tools : List ToolDef) (toolName : String) (input : Json),
      tools.find? (fun t => t.name == toolName) = none →
      registryExecute tools toolName input =
        ⟨false, "", some ("Unknown tool \"" ++ toolName ++ "\". Available: "
          ++ String.intercalate ", " (tools.map (fun t => t.name))), none⟩)
    ∧ (∀ (tools : List ToolDef) (toolName : String) (input : Json) (t : ToolDef) (msg : String),
      tools.find? (fun t => t.name == toolName) = some t →
      t.execute (if jsTruthy input then input else Json.obj .nil) = .error msg →
      registryExecute tools toolName input = ⟨false, "", some msg, none⟩) := by
  constructor
  · intro tools toolName input hfind
    simp [registryExecute, hfind]
  · intro tools toolName input t msg hfind hexec
    simp [registryExecute, hfind, hexec]

/-- Witness for **C8**: in a registry holding tools "good" and "bad"
(where "bad" throws "boom"), looking up the unregistered name "missing"
yields the enumerating error, and executing "bad" yields the caught
message. -/
theorem claim8_registry_execute_errors_witness :
    registryExecute [⟨"good", fun _ => .ok ⟨true, "out", none, none⟩⟩,
        ⟨"bad", fun _ => .error "boom"⟩] "missing" Json.null
      = ⟨false, "", some "Unknown tool \"missing\". Available: good, bad", none⟩ ∧
    registryExecute [⟨"good", fun _ => .ok ⟨true, "out", none, none⟩⟩,
        ⟨"bad", fun _ => .error "boom"⟩] "bad" Json.null
      = ⟨false, "", some "boom", none⟩ :=
  ⟨claim8_registry_execute_errors.1
      [⟨"good", fun _ => .ok ⟨true, "out", none, none⟩⟩,
       ⟨"bad", fun _ => .error "boom"⟩] "missing" Json.null rfl,
   claim8_registry_execute_errors.2
      [⟨"good", fun _ => .ok ⟨true, "out", none, none⟩⟩,
       ⟨"bad", fun _ => .error "boom"⟩] "bad" Json.null
      ⟨"bad", fun _ => .error "boom"⟩ "boom" rfl rfl⟩

/-- **C7**: the three spec examples of `parseAgentAction`: a bare JSON
object parses to the final action, a \x60\x60\x60json fenced block parses to the
tool action with its input object, and a JSON object embedded in prose is
found by the balanced-brace scan with the missing input defaulted to an
empty object. -/
theorem claim7_parse_examples :
    parseAgentAction "\x7b\"type\":\"final\",\"content\":\"done\"\x7d"
      = some (.final "done") ∧
    parseAgentAction "```json\n\x7b\"type\":\"tool\",\"tool\":\"search_text\",\"input\":\x7b\"query\":\"x\"\x7d\x7d\n```"
      = some (.tool "search_text" (Json.obj (.cons "query" (.str "x") .nil))) ∧
    parseAgentAction "noise \x7b\"type\":\"tool\",\"tool\":\"t\"\x7d trailing"
      = some (.tool "t" (Json.obj .nil)) :=
  ⟨rfl, rfl, rfl⟩

/-- Counterexample for **C10**: the tool name " " is a non-empty string,
yet normalization rejects the whole action (returns none) because the
name is trimmed before the emptiness check — so no Tool action with the
array input is returned at all. -/
theorem claim10_input_passthrough_counterexample :
    normalizeAction (Json.obj (.cons "type" (.str "tool")
      (.cons "tool" (.str " ") (.cons "input" (.arr .nil) .nil)))) = none := rfl

/-- **C10 (amended)**: for a parsed value \x7btype:"tool", tool: t, input: v\x7d
whose name trims to a non-empty string, the returned Tool action carries
the trimmed name and keeps `v` itself exactly when `v` is truthy and of
JavaScript object type (which includes JSON arrays), replacing it with an
empty object otherwise; when `input` is absent the input is the empty
object. -/
theorem claim10_input_passthrough (t : String) (v : Json) (ht : jsTrim t ≠ "") :
    normalizeAction (Json.obj (.cons "type" (.str "tool")
        (.cons "tool" (.str t) (.cons "input" v .nil))))
      = some (.tool (jsTrim t)
          (if jsTruthy v && isObjType v then v else Json.obj .nil)) ∧
    normalizeAction (Json.obj (.cons "type" (.str "tool")
        (.cons "tool" (.str t) .nil)))
      = some (.tool (jsTrim t) (Json.obj .nil)) := by
  constructor
  · have h : normalizeAction (Json.obj (.cons "type" (.str "tool")
        (.cons "tool" (.str t) (.cons "input" v .nil))))
        = if jsTrim t = "" then none
          else some (.tool (jsTrim t)
            (if jsTruthy v && isObjType v then v else Json.obj .nil)) := rfl
    rw [h, if_neg ht]
  · have h : normalizeAction (Json.obj (.cons "type" (.str "tool")
        (.cons "tool" (.str t) .nil)))
        = if jsTrim t = "" then none
          else some (.tool (jsTrim t) (Json.obj .nil)) := rfl
    rw [h, if_neg ht]

/-- Witness for **C10**: tool name "t" with a JSON array input passes the
array through unchanged; with no input field the input is `\x7b\x7d`. -/
theorem claim10_input_passthrough_witness :
    normalizeAction (Json.obj (.cons "type" (.str "tool")
        (.cons "tool" (.str "t") (.cons "input" (.arr .nil) .nil))))
      = some (.tool (jsTrim "t")
          (if jsTruthy (Json.arr .nil) && isObjType (Json.arr .nil)
            then Json.arr .nil else Json.obj .nil)) ∧
    normalizeAction (Json.obj (.cons "type" (.str "tool")
        (.cons "tool" (.str "t") .nil)))
      = some (.tool (jsTrim "t") (Json.obj .nil)) :=
  ⟨(claim10_input_passthrough "t" (Json.arr .nil) (by decide)).1,
   (claim10_input_passthrough "t" (Json.arr .nil) (by decide)).2⟩

/-- Spec-side (amended C5): the text contributed by one response fragment.
The supported shapes are \x7bvalue: string\x7d, \x7bvalue: \x7bvalue: string\x7d\x7d and
\x7btext: string\x7d; any other fragment — including a plain string — contributes
no text. -/
def specFragmentText (part : Json) : String :=
  match lookupField part "value" with
  | some (.str s) => s
  | some (.obj inner) =>
    (match lookupField (Json.obj inner) "value" with
     | some (.str s) => s
     | _ => match lookupField part "text" with | some (.str t) => t | _ => "")
  | _ => match lookupField part "text" with | some (.str t) => t | _ => ""

/-- Spec-side (amended C5): the at-most-one message a history turn yields.
A prompt string that is non-blank after trimming yields one User message;
otherwise a response list whose non-empty fragment texts join (with
newlines, trimmed) to a non-empty string yields one Assistant message;
otherwise the turn is skipped. -/
def specTurnMessage (turn : Json) : Option ChatMessage :=
  let prompt := match lookupField turn "prompt" with
    | some (.str s) => jsTrim s
    | _ => ""
  if prompt ≠ "" then some (.user prompt)
  else
    match lookupField turn "response" with
    | some (.arr parts) =>
      let text := jsTrim (String.intercalate "\n"
        ((parts.toList.map specFragmentText).filter (fun s => s ≠ "")))
      if text ≠ "" then some (.assistant text) else none
    | _ => none

theorem specFragmentText_eq (part : Json) :
    specFragmentText part = extractResponsePartText part := by
  cases part with
  | obj fs =>
    simp only [specFragmentText, extractResponsePartText]
    cases hv : lookupField (Json.obj fs) "value" with
    | none => rfl
    | some v =>
      cases v with
      | str s => rfl
      | obj gs =>
        cases hv2 : lookupField (Json.obj gs) "value" with
        | none => rfl
        | some w => cases w <;> rfl
      | arr its => rfl
      | null => rfl
      | bool b => cases b <;> rfl
      | num n =>
        simp only [jsTruthy, isObjType, Bool.and_false]
        rfl
  | arr its => rfl
  | null => rfl
  | bool b => rfl
  | num n => rfl
  | str s => rfl

theorem specTurnMessage_eq (turn : Json) :
    specTurnMessage turn =
      (if extractRequestText turn ≠ ""
        then some (ChatMessage.user (extractRequestText turn))
        else if extractResponseText turn ≠ ""
          then some (ChatMessage.assistant (extractResponseText turn))
          else none) := by
  have hf : specFragmentText = extractResponsePartText := funext specFragmentText_eq
  simp only [specTurnMessage, hf, extractRequestText, extractResponseText]
  cases hr : lookupField turn "response" with
  | none => rfl
  | some r => cases r <;> rfl

/-- Counterexample for **C5**: a turn whose only response fragment is the
plain string "hello" produces no message at all (plain-string fragments
are not among the supported shapes), and a turn with the blank prompt " "
produces an Assistant message from its response rather than a User
message (the prompt is trimmed and discarded when blank). -/
theorem claim5_transcript_counterexample :
    toModelMessages [Json.obj (.cons "response"
        (.arr (.cons (.str "hello") .nil)) .nil)] = [] ∧
    toModelMessages [Json.obj (.cons "prompt" (.str " ")
        (.cons "response" (.arr (.cons
          (Json.obj (.cons "value" (.str "hi") .nil)) .nil)) .nil))]
      = [.assistant "hi"] := ⟨rfl, rfl⟩

/-- **C5 (amended)**: the transcript builder is exactly the per-turn
`filterMap` of `specTurnMessage`: a turn with a prompt that is non-blank
after trimming yields one User message; otherwise its response fragments
of the shapes \x7bvalue: string\x7d, \x7bvalue: \x7bvalue: string\x7d\x7d and
\x7btext: string\x7d (plain strings contribute nothing) are joined and, if
non-empty, yield one Assistant message; other turns are skipped; order is
preserved with no deduplication or reordering. -/
theorem claim5_transcript_per_turn (h : List Json) :
    toModelMessages h = h.filterMap specTurnMessage := by
  induction h with
  | nil => rfl
  | cons turn rest ih =>
    by_cases hp : extractRequestText turn ≠ ""
    · simp [toModelMessages, List.filterMap_cons, specTurnMessage_eq, hp, ih]
    · by_cases hr : extractResponseText turn ≠ ""
      · simp [toModelMessages, List.filterMap_cons, specTurnMessage_eq, hp, hr, ih]
      · simp [toModelMessages, List.filterMap_cons, specTurnMessage_eq, hp, hr, ih]

/-- Counterexample for **C6**: a ToolResult whose `error` is the empty
string "" (a string, per the claim's hypothesis) does not round-trip:
`result.error ? ... : null` treats "" as falsy, so the re-parsed `error`
field is JSON `null`, not the original empty string. -/
theorem claim6_observation_roundtrip_counterexample :
    ((extractFirstJsonObject
        (formatToolObservation "t" ⟨true, "out", some "", none⟩)).bind
        jsonParse).bind (fun j => lookupField j "error") = some Json.null
      ∧ Json.null ≠ Json.str "" := ⟨rfl, by decide⟩

/-- **C6 (amended)**: for every ToolResult whose `error` is absent or a
*non-empty* string, formatting with `formatToolObservation` and re-parsing
the single JSON object contained in the emitted observation block (the
balanced-brace extraction followed by `JSON.parse`) recovers exactly the
payload object, whose `tool`, `ok`, `output`, `error` and `metadata`
fields are the originals (`error` as `null` when absent, `metadata`
present exactly when the original was). -/
theorem claim6_observation_roundtrip (toolName : String) (ok : Bool) (output : String)
    (err : Option String) (md : Option JsonFields)
    (herr : ∀ e, err = some e → e ≠ "") :
    (extractFirstJsonObject
        (formatToolObservation toolName ⟨ok, output, err, md⟩)).bind jsonParse
      = some (Json.obj (formatPayload toolName ⟨ok, output, err, md⟩)) ∧
    lookupField (Json.obj (formatPayload toolName ⟨ok, output, err, md⟩)) "tool"
      = some (.str toolName) ∧
    lookupField (Json.obj (formatPayload toolName ⟨ok, output, err, md⟩)) "ok"
      = some (.bool ok) ∧
    lookupField (Json.obj (formatPayload toolName ⟨ok, output, err, md⟩)) "output"
      = some (.str output) ∧
    lookupField (Json.obj (formatPayload toolName ⟨ok, output, err, md⟩)) "error"
      = some (match err with | some e => Json.str e | none => Json.null) ∧
    lookupField (Json.obj (formatPayload toolName ⟨ok, output, err, md⟩)) "metadata"
      = md.map Json.obj := by
  have hmain : (extractFirstJsonObject
      (formatToolObservation toolName ⟨ok, output, err, md⟩)).bind jsonParse
      = some (Json.obj (formatPayload toolName ⟨ok, output, err, md⟩)) := by
    have h1 : extractGo ⟨false, false, 0, none⟩
        (formatToolObservation toolName ⟨ok, output, err, md⟩).data
        = .inr (jcharsV (.obj (formatPayload toolName ⟨ok, output, err, md⟩))) := by
      have hd : (formatToolObservation toolName ⟨ok, output, err, md⟩).data
          = "TOOL_RESULT\n".data
            ++ jcharsV (.obj (formatPayload toolName ⟨ok, output, err, md⟩)) := rfl
      rw [hd, extractGo_append]
      have hpre : extractGo ⟨false, false, 0, none⟩ "TOOL_RESULT\n".data
          = .inl ⟨false, false, 0, none⟩ := rfl
      rw [hpre]
      have h2 := extractGo_obj_top (formatPayload toolName ⟨ok, output, err, md⟩) []
      rw [List.append_nil] at h2
      exact h2
    have h3 : extractFirstJsonObject (formatToolObservation toolName ⟨ok, output, err, md⟩)
        = some (String.mk (jcharsV (.obj (formatPayload toolName ⟨ok, output, err, md⟩)))) := by
      simp only [extractFirstJsonObject]
      rw [h1]
    rw [h3]
    exact jsonParse_stringify (.obj (formatPayload toolName ⟨ok, output, err, md⟩))
  refine ⟨hmain, ?_, ?_, ?_, ?_, ?_⟩
  · cases md <;> rfl
  · cases md <;> rfl
  · cases md <;> rfl
  · cases md with
    | none =>
      cases err with
      | none => rfl
      | some e =>
        have he : (if e = "" then Json.null else Json.str e) = Json.str e :=
          if_neg (herr e rfl)
        show some (if e = "" then Json.null else Json.str e) = some (Json.str e)
        rw [he]
    | some m =>
      cases err with
      | none => rfl
      | some e =>
        have he : (if e = "" then Json.null else Json.str e) = Json.str e :=
          if_neg (herr e rfl)
        show some (if e = "" then Json.null else Json.str e) = some (Json.str e)
        rw [he]
  · cases md <;> rfl

/-- Witness for **C6**: the ToolResult \x7bok: false, output: "o", error:
"bad", metadata: \x7b\x7d\x7d round-trips through its formatted observation
block, and its recovered `error` field is the original string. -/
theorem claim6_observation_roundtrip_witness :
    (extractFirstJsonObject
        (formatToolObservation "t" ⟨false, "o", some "bad", some .nil⟩)).bind jsonParse
      = some (Json.obj (formatPayload "t" ⟨false, "o", some "bad", some .nil⟩)) ∧
    lookupField (Json.obj (formatPayload "t" ⟨false, "o", some "bad", some .nil⟩)) "error"
      = some (Json.str "bad") := by
  have h := claim6_observation_roundtrip "t" false "o" (some "bad") (some .nil)
    (by intro e he; cases he; decide)
  exact ⟨h.1, h.2.2.2.2.1⟩
